import Mathlib

/-!
HT16K33 alphanumeric display driver.

A shallow embedding of `components/ht16k33_alpha/ht16k33_display.cpp`.

Modelling conventions.

* Bytes, cursors and timestamps are natural numbers; every place where the C++
  code narrows a value to a machine type carries an explicit modulus
  (`uint8_t` cursor: `% 256`, `uint16_t` pattern: `% 65536`, `unsigned long`
  subtraction: `% 2 ^ 32`).
* `buffer_` is a byte memory `Nat → Nat` addressed from the start of the array,
  so reads and writes at any index are visible in the model.
* `offset_` and `buffer_fill_` are signed integers in the source which only ever
  receive non-negative values (`0`, a `uint8_t` cursor, `std::max(_, 0)` and
  `+= 2`); they are natural numbers here and `std::max(a - b, 0)` is computed
  over the integers and converted back.
* `int numc = displays_.size() * 8` is `displays * 8` without overflow (a window
  list of `2 ^ 28` bus devices is outside the model).
* The font table `alphafonttable` is defined in `font.h`; it is a parameter
  `font : Nat → Nat` of every operation that reads it, and the capacity
  `custom_buffer_`, declared in the header, is an arbitrary natural number.
* The bytes sent to the bus by `write_bytes` are collected, in order, in the
  field `bus`.
-/

namespace HT16K33

/-! ## Commands -/

def DISPLAY_COMMAND_SET_DDRAM_ADDR : Nat := 0x00
def DISPLAY_COMMAND_SYSTEM_SETUP : Nat := 0x21
/-- One call `display->write_bytes(command, data, len)` on the window with
index `display` of `displays_`: the command byte, the data pointer as an
index into `buffer_` (`none` for `nullptr`) and the `len` bytes found there. -/
structure WriteBytes where
  display : Nat
  command : Nat
  addr : Option Nat
  data : List Nat
  deriving DecidableEq

/-- The members of `HT16K33AlphaDisplay` used by the translated functions. -/
structure HT16K33AlphaDisplay where
  /-- The value of `displays_.size()`, the number of windows. -/
  displays : Nat
  /-- The member `custom_buffer_`, the capacity of `buffer_` in bytes. -/
  custom_buffer : Nat
  scroll : Bool
  scroll_speed : Nat
  scroll_dwell : Nat
  scroll_delay : Nat
  c_scroll : Bool
  c_scroll_spacer : List Nat
  c_scroll_display_length : Nat
  buffer : Nat → Nat
  buffer_fill : Nat
  offset : Nat
  last_scroll : Nat
  brightness : Nat
  /-- Every `write_bytes` call made so far, oldest first. -/
  bus : List WriteBytes

/-- Width of `unsigned long` on the 32-bit targets of the component. -/
def ULONG : Nat := 2 ^ 32

/-- The unsigned subtraction `now - last_scroll_`. -/
def elapsed (now last : Nat) : Nat := (now % ULONG + (ULONG - last % ULONG)) % ULONG

/-! ## display_ -/

/-- The `len` bytes read from `buffer_ + offset`. -/
def readBytes (buffer : Nat → Nat) (offset len : Nat) : List Nat :=
  (List.range len).map (fun j => buffer (offset + j))

/-- The loop of `display_`: one write per window, the local `offset` advancing
by 8 after each. -/
def displayWrites (buffer : Nat → Nat) : List Nat → Nat → List WriteBytes
  | [], _ => []
  | w :: ws, offset =>
    ⟨w, DISPLAY_COMMAND_SET_DDRAM_ADDR, some offset, readBytes buffer offset 8⟩ ::
      displayWrites buffer ws (offset + 8)

/-- The method `HT16K33AlphaDisplay::display_`. -/
def display_ (d : HT16K33AlphaDisplay) : HT16K33AlphaDisplay :=
  { d with bus := d.bus ++ displayWrites d.buffer (List.range d.displays) d.offset }

/-! ## loop -/

/-- The method `HT16K33AlphaDisplay::loop`, with `now` the value returned by `millis()`. -/
def loop (d : HT16K33AlphaDisplay) (now : Nat) : HT16K33AlphaDisplay :=
  let numc := d.displays * 8
  let d1 :=
    if d.offset + numc > d.buffer_fill then
      display_ { d with offset := (max ((d.buffer_fill : Int) - (numc : Int)) 0).toNat }
    else d
  if !d1.scroll || d1.buffer_fill ≤ numc then d1
  else if d1.offset = 0 && elapsed now d1.last_scroll < d1.scroll_delay then d1
  else if d1.offset + numc ≥ d1.buffer_fill then
    if elapsed now d1.last_scroll ≥ d1.scroll_dwell then
      display_ { d1 with offset := 0, last_scroll := now }
    else d1
  else if elapsed now d1.last_scroll ≥ d1.scroll_speed then
    display_ { d1 with offset := d1.offset + 2, last_scroll := now }
  else d1

/-! ## print -/

/-- One pass of the body of the `while` loop of `print` as seen from outside:
the index in the text of the character encoded, the value of the cursor `pos`
at which its two bytes are stored, and the pattern `fontc`. -/
structure Cell where
  src : Nat
  pos : Nat
  fontc : Nat
  deriving DecidableEq

/-- What the `while` loop of `print` leaves behind: the buffer, the cursor and
the cells it stored, oldest first. -/
structure PrintResult where
  buffer : Nat → Nat
  pos : Nat
  cells : List Cell

/-- The two stores `buffer_[pos++] = fontc & 0xff; buffer_[pos++] = fontc >> 8`
with the 8-bit cursor `pos`. -/
def storeCell (buffer : Nat → Nat) (pos fontc : Nat) : (Nat → Nat) × Nat :=
  let b1 := Function.update buffer pos (fontc % 256)
  let pos1 := (pos + 1) % 256
  let b2 := Function.update b1 pos1 (fontc / 256 % 256)
  (b2, (pos1 + 1) % 256)

/-- The lookup `c > 127 ? 0 : alphafonttable[c]` into the 16-bit `fontc`. -/
def glyph (font : Nat → Nat) (c : Nat) : Nat :=
  if c > 127 then 0 else font c % 65536

/-- The `while (*str != 0)` loop of `print`. The text is the byte sequence at
`str`; a zero byte ends it, as does the end of the list. `i` is the index of
the head of the list in the text. -/
def printLoop (custom_buffer : Nat) (font : Nat → Nat) :
    List Nat → Nat → Nat → (Nat → Nat) → PrintResult
  | [], _, pos, buffer => ⟨buffer, pos, []⟩
  | c :: str, i, pos, buffer =>
    if c = 0 then ⟨buffer, pos, []⟩
    else if pos ≥ custom_buffer then ⟨buffer, pos, []⟩
    else
      match str with
      | [] =>
        let fontc := glyph font c
        let s := storeCell buffer pos fontc
        ⟨s.1, s.2, [⟨i, pos, fontc⟩]⟩
      | c2 :: str2 =>
        if c2 = 46 then
          let fontc := glyph font c ||| 0x4000
          let s := storeCell buffer pos fontc
          let r := printLoop custom_buffer font str2 (i + 2) s.2 s.1
          ⟨r.buffer, r.pos, ⟨i, pos, fontc⟩ :: r.cells⟩
        else
          let fontc := glyph font c
          let s := storeCell buffer pos fontc
          let r := printLoop custom_buffer font (c2 :: str2) (i + 1) s.2 s.1
          ⟨r.buffer, r.pos, ⟨i, pos, fontc⟩ :: r.cells⟩

/-- The contents of a `std::string` built from the C string at `str`. -/
def cstr (str : List Nat) : List Nat := str.takeWhile (fun c => c != 0)

/-- The text the `while` loop of `print` runs over: the argument itself, or,
when continuous scrolling applies, `r_str` after the two `append` calls. -/
def scrollText (d : HT16K33AlphaDisplay) (str : List Nat) : List Nat :=
  let r_str := cstr str
  let t_str := r_str.filter (fun c => c != 46)
  if d.c_scroll && t_str.length > d.c_scroll_display_length then
    let r1 := r_str ++ ([32] ++ d.c_scroll_spacer ++ [32])
    r1 ++ r1.take d.c_scroll_display_length
  else str

/-- The `while` loop of `print` run on the state `d`: the cursor starts at
`(uint8_t) buffer_fill_`. -/
def printRun (font : Nat → Nat) (d : HT16K33AlphaDisplay) (str : List Nat) : PrintResult :=
  printLoop d.custom_buffer font (scrollText d str) 0 (d.buffer_fill % 256) d.buffer

/-- The method `HT16K33AlphaDisplay::print(const char *str)`. -/
def print (font : Nat → Nat) (d : HT16K33AlphaDisplay) (str : List Nat) : HT16K33AlphaDisplay :=
  let r := printRun font d str
  { d with buffer := r.buffer, buffer_fill := r.pos }

/-! ## update -/

/-- The call `memset(buffer_, 0, n)`. -/
def memset0 (buffer : Nat → Nat) (n : Nat) : Nat → Nat :=
  fun i => if i < n then 0 else buffer i

/-- The method `HT16K33AlphaDisplay::update`, with `writer` the callback run by
`call_writer()` and `now` the value returned by `millis()`. -/
def update (d : HT16K33AlphaDisplay) (writer : HT16K33AlphaDisplay → HT16K33AlphaDisplay)
    (now : Nat) : HT16K33AlphaDisplay :=
  let d0 := { d with buffer := memset0 d.buffer d.custom_buffer }
  let prev_fill := d0.buffer_fill
  let d1 := writer { d0 with buffer_fill := 0 }
  let d2 :=
    if d1.scroll && prev_fill != d1.buffer_fill then
      { d1 with last_scroll := now, offset := 0 }
    else d1
  display_ d2

/-- A writer callback that prints the given texts one after the other. -/
def printAll (font : Nat → Nat) (texts : List (List Nat)) (d : HT16K33AlphaDisplay) :
    HT16K33AlphaDisplay :=
  texts.foldl (print font) d

/-! ## Brightness

The level is a `float`; it is modelled by the rational number it stands for:
`level * 16` and `round` are exact in binary floating point. The conversion
`(int)` of line 81 is defined only for a value that fits the 32-bit `int`;
for any other value the conversion, and with it `set_brightness`, has no
result in the model. -/

/-- The cells the `while` loop of `print` would store for the text if the
buffer never filled up: index of the encoded character and pattern. -/
def cellsOf (font : Nat → Nat) : List Nat → Nat → List (Nat × Nat)
  | [], _ => []
  | c :: str, i =>
    if c = 0 then []
    else
      match str with
      | [] => [(i, glyph font c)]
      | c2 :: str2 =>
        if c2 = 46 then (i, glyph font c ||| 0x4000) :: cellsOf font str2 (i + 2)
        else (i, glyph font c) :: cellsOf font (c2 :: str2) (i + 1)

/-- The `while` loop of `print` seen as a loop over the cells of the text. -/
def storeLoop (custom_buffer : Nat) : List (Nat × Nat) → Nat → (Nat → Nat) → PrintResult
  | [], pos, buffer => ⟨buffer, pos, []⟩
  | (i, fontc) :: cs, pos, buffer =>
    if pos ≥ custom_buffer then ⟨buffer, pos, []⟩
    else
      let s := storeCell buffer pos fontc
      let r := storeLoop custom_buffer cs s.2 s.1
      ⟨r.buffer, r.pos, ⟨i, pos, fontc⟩ :: r.cells⟩

/-! ## Reference notions of the specification -/

/-- The number of characters of a text that are not consumed as decimal-point
modifiers (`validCharCount` of the specification): a character followed by
`.` counts once for the two of them. -/
def validCharCount : List Nat → Nat
  | [] => 0
  | [_] => 1
  | _ :: c2 :: str2 =>
    if c2 = 46 then 1 + validCharCount str2 else 1 + validCharCount (c2 :: str2)

/-- The reference cell sequence of the specification: a character followed by
`.` gives its glyph with the decimal-point bit and consumes both, any other
character gives its glyph. -/
def refCells (font : Nat → Nat) : List Nat → List Nat
  | [] => []
  | [c] => [glyph font c]
  | c :: c2 :: str2 =>
    if c2 = 46 then (glyph font c ||| 0x4000) :: refCells font str2
    else glyph font c :: refCells font (c2 :: str2)

/-- The rewritten text of the specification for continuous scrolling:
`original + " " + spacer + " " + rewritten[0:N]`, the slice being the first
`N` characters of the string after the spacer was appended. -/
def rewrittenSpec (spacer : List Nat) (N : Nat) (original : List Nat) : List Nat :=
  let rewritten := original ++ [32] ++ spacer ++ [32]
  rewritten ++ rewritten.take N

/-- The cells written as (low byte, high byte) pairs. -/
def cellBytes : List Nat → List Nat
  | [] => []
  | cell :: cells => cell % 256 :: cell / 256 % 256 :: cellBytes cells

/-! ## Concrete states -/

/-- A controller right after construction: zeroed buffer, nothing printed,
continuous scrolling off. -/
def initial (displays custom_buffer : Nat) (scroll : Bool)
    (scroll_delay scroll_dwell scroll_speed : Nat) : HT16K33AlphaDisplay :=
  { displays := displays, custom_buffer := custom_buffer, scroll := scroll,
    scroll_speed := scroll_speed, scroll_dwell := scroll_dwell, scroll_delay := scroll_delay,
    c_scroll := false, c_scroll_spacer := [], c_scroll_display_length := 0,
    buffer := fun _ => 0, buffer_fill := 0, offset := 0, last_scroll := 0,
    brightness := 16, bus := [] }

/-- The text of 128 letters `A`. -/
def text128 : List Nat := List.replicate 128 65

/-- The text of 128 letters `A` followed by one `B`. -/
def text129 : List Nat := List.replicate 128 65 ++ [66]

/-! ## Reads of the renders -/

/-- The bytes a `write_bytes` call reads lie below index `cap` of `buffer_`
(a call with `nullptr` reads nothing). -/
def readsInside (cap : Nat) (w : WriteBytes) : Bool :=
  match w.addr with
  | none => true
  | some o => decide (o + w.data.length ≤ cap)

/-- Every call of the log reads below index `cap` of `buffer_`. -/
def busInside (cap : Nat) (bus : List WriteBytes) : Prop :=
  ∀ w ∈ bus, readsInside cap w = true

/-- What every state reached from the initial one has in common when the
capacity is even and lies between `displays * 8` and 254: offset and fill are
even, the fill is at most the capacity, the offset is 0 while scrolling is
off, the window at the offset ends at or before `max fill (displays * 8)`,
and every render so far has read inside the buffer. -/
def RenderInv (d : HT16K33AlphaDisplay) : Prop :=
  d.custom_buffer % 2 = 0 ∧ d.displays * 8 ≤ d.custom_buffer ∧ d.custom_buffer ≤ 254 ∧
  d.offset % 2 = 0 ∧ d.buffer_fill % 2 = 0 ∧ d.buffer_fill ≤ d.custom_buffer ∧
  (d.scroll = false → d.offset = 0) ∧
  d.offset + d.displays * 8 ≤ max d.buffer_fill (d.displays * 8) ∧
  busInside d.custom_buffer d.bus

/-! ## Call sequences -/

/-- One call into the controller: `update()` with a writer that prints the
given texts, a direct `print(text)`, or `loop()`; `now` is what `millis()`
returns during the call. -/
inductive Call where
  | update (texts : List (List Nat)) (now : Nat)
  | print (text : List Nat)
  | loop (now : Nat)

/-- The state after one call. -/
def perform (font : Nat → Nat) (d : HT16K33AlphaDisplay) : Call → HT16K33AlphaDisplay
  | Call.update texts now => update d (printAll font texts) now
  | Call.print text => print font d text
  | Call.loop now => loop d now

/-- The state after a sequence of calls. -/
def performAll (font : Nat → Nat) (d : HT16K33AlphaDisplay) (calls : List Call) :
    HT16K33AlphaDisplay :=
  calls.foldl (perform font) d

/-- The state after a sequence of `loop()` calls at the given times. -/
def ticks (d : HT16K33AlphaDisplay) (nows : List Nat) : HT16K33AlphaDisplay :=
  nows.foldl loop d

/-- Every tick of the list comes at least `gap` after the one before it, the
first one at least `gap` after `last`. -/
def paced (gap : Nat) (last : Nat) : List Nat → Bool
  | [] => true
  | now :: nows => decide (gap ≤ elapsed now last) && paced gap now nows

/-- Scenario B of the specification: two windows, scrolling enabled with
delay 1000, dwell 500 and speed 200, and a text of fill 40 in the buffer. -/
def scenarioB : HT16K33AlphaDisplay :=
  { initial 2 64 true 1000 500 200 with buffer_fill := 40 }

/-- The ticks of scenario B that follow the first advance at 1000, one every
200 ms up to 3200. -/
def ticksB : List Nat :=
  [1200, 1400, 1600, 1800, 2000, 2200, 2400, 2600, 2800, 3000, 3200]

/-! ## The print loop -/

theorem printLoop_eq_storeLoop (cap : Nat) (font : Nat → Nat) (str : List Nat) (i pos : Nat)
    (buffer : Nat → Nat) :
    printLoop cap font str i pos buffer = storeLoop cap (cellsOf font str i) pos buffer := by
  induction str, i, pos, buffer using printLoop.induct cap font with
  | case1 i pos buffer => simp [printLoop, cellsOf, storeLoop]
  | case2 str i pos buffer => unfold printLoop cellsOf; simp [storeLoop]
  | case3 c str i pos buffer h0 hfull =>
    cases str with
    | nil => simp [printLoop, cellsOf, storeLoop, h0, hfull]
    | cons c2 str2 =>
      by_cases h46 : c2 = 46 <;> simp [printLoop, cellsOf, storeLoop, h0, hfull, h46]
  | case4 c i pos buffer h0 hfull => simp [printLoop, cellsOf, storeLoop, h0, hfull]
  | case5 c i pos buffer h0 hfull str2 fontc s ih =>
    simp only [printLoop, cellsOf, storeLoop, h0, hfull, if_false, if_true]
    rw [ih]
  | case6 c i pos buffer h0 hfull c2 str2 h46 fontc s ih =>
    simp only [printLoop, cellsOf, storeLoop, h0, hfull, h46, if_false]
    rw [ih]

theorem storeLoop_full (cap : Nat) (cs : List (Nat × Nat)) (pos : Nat) (buffer : Nat → Nat)
    (h : cap ≤ pos) : storeLoop cap cs pos buffer = ⟨buffer, pos, []⟩ := by
  cases cs with
  | nil => rfl
  | cons c cs => obtain ⟨i, f⟩ := c; simp [storeLoop, h]

theorem storeCell_snd (buffer : Nat → Nat) (pos fontc : Nat) :
    (storeCell buffer pos fontc).2 = (pos + 2) % 256 := by
  simp only [storeCell]; omega

theorem storeLoop_append (cap : Nat) (cs cs2 : List (Nat × Nat)) (pos : Nat) (buffer : Nat → Nat) :
    storeLoop cap (cs ++ cs2) pos buffer =
      ⟨(storeLoop cap cs2 (storeLoop cap cs pos buffer).pos (storeLoop cap cs pos buffer).buffer).buffer,
       (storeLoop cap cs2 (storeLoop cap cs pos buffer).pos (storeLoop cap cs pos buffer).buffer).pos,
       (storeLoop cap cs pos buffer).cells ++
       (storeLoop cap cs2 (storeLoop cap cs pos buffer).pos (storeLoop cap cs pos buffer).buffer).cells⟩ := by
  induction cs generalizing pos buffer with
  | nil => simp [storeLoop]
  | cons c cs ih =>
    obtain ⟨i, f⟩ := c
    by_cases hfull : cap ≤ pos
    · simp [storeLoop, hfull, storeLoop_full]
    · simp only [List.cons_append, storeLoop, ge_iff_le, hfull, if_false, List.append_eq]
      rw [ih]

theorem storeLoop_pos_wrap (cap : Nat) (hcap : 256 ≤ cap) (cs : List (Nat × Nat)) (pos : Nat)
    (buffer : Nat → Nat) (hpos : pos < 256) :
    (storeLoop cap cs pos buffer).pos = (pos + 2 * cs.length) % 256 := by
  induction cs generalizing pos buffer with
  | nil => simp [storeLoop]; omega
  | cons c cs ih =>
    obtain ⟨i, f⟩ := c
    have hfull : ¬ cap ≤ pos := by omega
    simp only [storeLoop, ge_iff_le, hfull, if_false, List.length_cons]
    rw [ih _ _ (by rw [storeCell_snd]; omega), storeCell_snd]
    omega

theorem cellsOf_length_plain (font : Nat → Nat) (str : List Nat) (i : Nat)
    (h : ∀ c ∈ str, c ≠ 0 ∧ c ≠ 46) : (cellsOf font str i).length = str.length := by
  induction str generalizing i with
  | nil => simp [cellsOf]
  | cons c str ih =>
    have hc := h c (by simp)
    cases str with
    | nil => simp [cellsOf, hc.1]
    | cons c2 str2 =>
      have hc2 := h c2 (by simp)
      have := ih (i + 1) (fun x hx => h x (List.mem_cons_of_mem _ hx))
      simp [cellsOf, hc.1, hc2.2, this]

theorem cellsOf_append (font : Nat → Nat) (s s2 : List Nat) (i : Nat)
    (hz : ∀ c ∈ s, c ≠ 0) (h2 : s2.head? ≠ some 46) :
    cellsOf font (s ++ s2) i = cellsOf font s i ++ cellsOf font s2 (i + s.length) := by
  induction s, i using cellsOf.induct font with
  | case1 i => simp [cellsOf]
  | case2 str i => exact absurd rfl (hz 0 (by simp))
  | case3 c i h0 =>
    cases s2 with
    | nil => simp [cellsOf, h0]
    | cons c2 s3 =>
      have h46 : c2 ≠ 46 := by simpa using h2
      simp [cellsOf, h0, h46]
  | case4 c i h0 str2 ih =>
    have := ih (fun x hx => hz x (by simp [hx]))
    have e : i + 2 + str2.length = i + (str2.length + 1 + 1) := by omega
    simp only [List.cons_append, cellsOf, h0, if_false, if_true, List.append_eq, this,
      List.length_cons, e]
  | case5 c i h0 c2 str2 h46 ih =>
    have := ih (fun x hx => hz x (List.mem_cons_of_mem _ hx))
    have e : i + 1 + (str2.length + 1) = i + (str2.length + 1 + 1) := by omega
    simp only [List.cons_append, cellsOf, h0, h46, if_false, List.length_cons, List.append_eq,
      e] at this ⊢
    rw [this]

theorem storeLoop_cells_sub (cap : Nat) (cs : List (Nat × Nat)) (pos : Nat) (buffer : Nat → Nat)
    (cell : Cell) (h : cell ∈ (storeLoop cap cs pos buffer).cells) :
    (cell.src, cell.fontc) ∈ cs := by
  induction cs generalizing pos buffer with
  | nil => simp [storeLoop] at h
  | cons c cs ih =>
    obtain ⟨i, f⟩ := c
    by_cases hfull : cap ≤ pos
    · simp [storeLoop, hfull] at h
    · simp only [storeLoop, ge_iff_le, hfull, if_false, List.mem_cons] at h
      rcases h with h | h
      · subst h; simp
      · exact List.mem_cons_of_mem _ (ih _ _ h)

theorem storeLoop_buffer_cases (cap : Nat) (cs : List (Nat × Nat)) (pos : Nat)
    (b b2 : Nat → Nat) (i : Nat) :
    (storeLoop cap cs pos b).buffer i = (storeLoop cap cs pos b2).buffer i ∨
      ((storeLoop cap cs pos b).buffer i = b i ∧ (storeLoop cap cs pos b2).buffer i = b2 i) := by
  induction cs generalizing pos b b2 with
  | nil => right; simp [storeLoop]
  | cons c cs ih =>
    obtain ⟨k, f⟩ := c
    by_cases hfull : cap ≤ pos
    · right; simp [storeLoop, hfull]
    · simp only [storeLoop, ge_iff_le, hfull, if_false]
      have hs : (storeCell b pos f).2 = (storeCell b2 pos f).2 := by
        rw [storeCell_snd, storeCell_snd]
      rw [hs]
      rcases ih (storeCell b2 pos f).2 (storeCell b pos f).1 (storeCell b2 pos f).1 with h | ⟨h1, h2⟩
      · exact Or.inl h
      · rw [h1, h2]
        simp only [storeCell, Function.update_apply]
        by_cases e1 : i = (pos + 1) % 256
        · left; simp [e1]
        · by_cases e2 : i = pos
          · left; simp [e1, e2]
          · right; simp [e1, e2]

theorem storeLoop_pos_indep (cap : Nat) (cs : List (Nat × Nat)) (pos : Nat) (b b2 : Nat → Nat) :
    (storeLoop cap cs pos b).pos = (storeLoop cap cs pos b2).pos := by
  induction cs generalizing pos b b2 with
  | nil => simp [storeLoop]
  | cons c cs ih =>
    obtain ⟨k, f⟩ := c
    by_cases hfull : cap ≤ pos
    · simp [storeLoop, hfull]
    · simp only [storeLoop, ge_iff_le, hfull, if_false]
      rw [storeCell_snd, storeCell_snd]
      exact ih _ _ _

theorem storeLoop_pos_parity (cap : Nat) (cs : List (Nat × Nat)) (pos : Nat) (b : Nat → Nat) :
    (storeLoop cap cs pos b).pos % 2 = pos % 2 := by
  induction cs generalizing pos b with
  | nil => simp [storeLoop]
  | cons c cs ih =>
    obtain ⟨k, f⟩ := c
    by_cases hfull : cap ≤ pos
    · simp [storeLoop, hfull]
    · simp only [storeLoop, ge_iff_le, hfull, if_false]
      rw [ih, storeCell_snd]
      omega


theorem scrollText_off (d : HT16K33AlphaDisplay) (str : List Nat) (h : d.c_scroll = false) :
    scrollText d str = str := by
  simp [scrollText, h]

theorem printRun_eq_storeLoop (font : Nat → Nat) (d : HT16K33AlphaDisplay) (str : List Nat)
    (h : d.c_scroll = false) :
    printRun font d str =
      storeLoop d.custom_buffer (cellsOf font str 0) (d.buffer_fill % 256) d.buffer := by
  rw [printRun, scrollText_off d str h, printLoop_eq_storeLoop]

theorem storeLoop_pos_wrap_even (cap : Nat) (hcap : 255 ≤ cap) (cs : List (Nat × Nat))
    (pos : Nat) (buffer : Nat → Nat) (hpos : pos < 256) (heven : pos % 2 = 0) :
    (storeLoop cap cs pos buffer).pos = (pos + 2 * cs.length) % 256 := by
  induction cs generalizing pos buffer with
  | nil => simp [storeLoop]; omega
  | cons c cs ih =>
    obtain ⟨i, f⟩ := c
    have hfull : ¬ cap ≤ pos := by omega
    simp only [storeLoop, ge_iff_le, hfull, if_false, List.length_cons]
    rw [ih _ _ (by rw [storeCell_snd]; omega) (by rw [storeCell_snd]; omega), storeCell_snd]
    omega

theorem storeLoop_wrap_last (cap : Nat) (hcap : 255 ≤ cap) (cs : List (Nat × Nat)) (i f pos : Nat)
    (b : Nat → Nat) (hpos : pos < 256) (heven : pos % 2 = 0) :
    (storeLoop cap (cs ++ [(i, f)]) pos b).buffer ((pos + 2 * cs.length) % 256) = f % 256 ∧
    (storeLoop cap (cs ++ [(i, f)]) pos b).buffer ((pos + 2 * cs.length) % 256 + 1) =
      f / 256 % 256 ∧
    (storeLoop cap (cs ++ [(i, f)]) pos b).pos = (pos + 2 * cs.length + 2) % 256 ∧
    (storeLoop cap (cs ++ [(i, f)]) pos b).cells.length =
      (storeLoop cap cs pos b).cells.length + 1 := by
  rw [storeLoop_append]
  have hp := storeLoop_pos_wrap_even cap hcap cs pos b hpos heven
  have hfull : ¬ cap ≤ (pos + 2 * cs.length) % 256 := by omega
  have e1 : ((pos + 2 * cs.length) % 256 + 1) % 256 = (pos + 2 * cs.length) % 256 + 1 := by omega
  simp only [storeLoop, ge_iff_le, hfull, if_false, storeCell, hp, e1, Function.update_apply,
    List.length_append, List.length_singleton]
  refine ⟨?_, ?_, ?_, trivial⟩
  · simp
  · simp
  · omega

theorem storeLoop_cells_length_wrap (cap : Nat) (hcap : 256 ≤ cap) (cs : List (Nat × Nat))
    (pos : Nat) (b : Nat → Nat) (hpos : pos < 256) :
    (storeLoop cap cs pos b).cells.length = cs.length := by
  induction cs generalizing pos b with
  | nil => simp [storeLoop]
  | cons c cs ih =>
    obtain ⟨i, f⟩ := c
    have hfull : ¬ cap ≤ pos := by omega
    simp only [storeLoop, ge_iff_le, hfull, if_false, List.length_cons]
    rw [ih _ _ (by rw [storeCell_snd]; omega)]

theorem cellsOf_length (font : Nat → Nat) (str : List Nat) (i : Nat) (hz : ∀ c ∈ str, c ≠ 0) :
    (cellsOf font str i).length = validCharCount str := by
  induction str, i using cellsOf.induct font with
  | case1 i => simp [cellsOf, validCharCount]
  | case2 str i => exact absurd rfl (hz 0 (by simp))
  | case3 c i h0 => simp [cellsOf, validCharCount, h0]
  | case4 c i h0 str2 ih =>
    have := ih (fun x hx => hz x (by simp [hx]))
    simp [cellsOf, validCharCount, h0, this]; omega
  | case5 c i h0 c2 str2 h46 ih =>
    have := ih (fun x hx => hz x (List.mem_cons_of_mem _ hx))
    simp [cellsOf, validCharCount, h0, h46, this]; omega

theorem validCharCount_plain (str : List Nat) (h : ∀ c ∈ str, c ≠ 46) :
    validCharCount str = str.length := by
  induction str with
  | nil => rfl
  | cons c str ih =>
    cases str with
    | nil => rfl
    | cons c2 str2 =>
      have h2 : c2 ≠ 46 := h c2 (by simp)
      have := ih (fun x hx => h x (List.mem_cons_of_mem _ hx))
      simp [validCharCount, h2, this]; omega

theorem refCells_length (font : Nat → Nat) (str : List Nat) :
    (refCells font str).length = validCharCount str := by
  induction str using validCharCount.induct with
  | case1 => rfl
  | case2 c => rfl
  | case3 c str2 ih => simp [refCells, validCharCount, ih]; omega
  | case4 c c2 str2 h46 ih => simp [refCells, validCharCount, h46, ih]; omega

theorem cellBytes_length (cells : List Nat) : (cellBytes cells).length = 2 * cells.length := by
  induction cells with
  | nil => rfl
  | cons c cs ih => simp [cellBytes, ih]; omega


theorem readBytes_succ (b : Nat → Nat) (p n : Nat) :
    readBytes b p (n + 1) = b p :: readBytes b (p + 1) n := by
  simp only [readBytes, List.range_succ_eq_map, List.map_cons, List.map_map, Nat.add_zero]
  congr 1
  apply List.map_congr_left
  intro j _
  simp only [Function.comp, Nat.succ_eq_add_one]
  congr 1
  omega

theorem storeLoop_fits (cap : Nat) (cs : List (Nat × Nat)) (pos : Nat) (b : Nat → Nat)
    (hcap : pos + 2 * cs.length ≤ cap) (h256 : pos + 2 * cs.length < 256) :
    (storeLoop cap cs pos b).pos = pos + 2 * cs.length ∧
    (storeLoop cap cs pos b).cells.length = cs.length ∧
    (∀ j, j < pos ∨ pos + 2 * cs.length ≤ j → (storeLoop cap cs pos b).buffer j = b j) ∧
    readBytes (storeLoop cap cs pos b).buffer pos (2 * cs.length) =
      cellBytes (cs.map Prod.snd) := by
  induction cs generalizing pos b with
  | nil => simp [storeLoop, readBytes, cellBytes]
  | cons c cs ih =>
    obtain ⟨i, f⟩ := c
    simp only [List.length_cons] at hcap h256
    have hfull : ¬ cap ≤ pos := by omega
    have e2 : (pos + 2) % 256 = pos + 2 := by omega
    have e1 : (pos + 1) % 256 = pos + 1 := by omega
    obtain ⟨ih1, ih2, ih3, ih4⟩ := ih (pos + 2)
      (Function.update (Function.update b pos (f % 256)) (pos + 1) (f / 256 % 256))
      (by omega) (by omega)
    simp only [storeLoop, ge_iff_le, hfull, if_false, List.length_cons, storeCell, e1,
      List.map_cons, cellBytes]
    have e3 : pos + 1 + 1 = pos + 2 := rfl
    rw [e3, e2]
    refine ⟨by rw [ih1]; omega, by rw [ih2], ?_, ?_⟩
    · intro j hj
      rw [ih3 j (by omega), Function.update_apply, Function.update_apply]
      have h1 : j ≠ pos + 1 := by omega
      have h2 : j ≠ pos := by omega
      simp [h1, h2]
    · have e4 : 2 * (cs.length + 1) = 2 * cs.length + 1 + 1 := by omega
      rw [e4, readBytes_succ, readBytes_succ, e3, ih4, ih3 pos (by omega), ih3 (pos + 1) (by omega)]
      simp [Function.update_apply]

theorem cellsOf_snd (font : Nat → Nat) (str : List Nat) (i : Nat) (hz : ∀ c ∈ str, c ≠ 0) :
    (cellsOf font str i).map Prod.snd = refCells font str := by
  induction str, i using cellsOf.induct font with
  | case1 i => simp [cellsOf, refCells]
  | case2 str i => exact absurd rfl (hz 0 (by simp))
  | case3 c i h0 => simp [cellsOf, refCells, h0]
  | case4 c i h0 str2 ih =>
    have := ih (fun x hx => hz x (by simp [hx]))
    simp [cellsOf, refCells, h0, this]
  | case5 c i h0 c2 str2 h46 ih =>
    have := ih (fun x hx => hz x (List.mem_cons_of_mem _ hx))
    simp [cellsOf, refCells, h0, h46, this]

/-- Below the wrap of the 8-bit cursor a text that fits is encoded as the
specification says: the fill is twice the number of cells and the bytes below
the fill are the reference cells as (low, high) pairs. -/
theorem print_of_fits_below_256 (font : Nat → Nat) (d : HT16K33AlphaDisplay) (t : List Nat)
    (hc : d.c_scroll = false) (hfill : d.buffer_fill = 0) (hz : ∀ c ∈ t, c ≠ 0)
    (hfit : 2 * validCharCount t ≤ d.custom_buffer) (h256 : 2 * validCharCount t < 256) :
    (print font d t).buffer_fill = 2 * validCharCount t ∧
    readBytes (print font d t).buffer 0 (print font d t).buffer_fill =
      cellBytes (refCells font t) ∧
    ∀ j, 2 * validCharCount t ≤ j → (print font d t).buffer j = d.buffer j := by
  have hl := cellsOf_length font t 0 hz
  have hs := storeLoop_fits d.custom_buffer (cellsOf font t 0) 0 d.buffer
    (by rw [hl]; omega) (by rw [hl]; omega)
  have hp : print font d t =
      { d with buffer := (storeLoop d.custom_buffer (cellsOf font t 0) 0 d.buffer).buffer,
               buffer_fill := (storeLoop d.custom_buffer (cellsOf font t 0) 0 d.buffer).pos } := by
    rw [print, printRun_eq_storeLoop _ _ _ hc, hfill]
  rw [hp]
  obtain ⟨h1, _, h3, h4⟩ := hs
  simp only [h1, hl, Nat.zero_add] at *
  refine ⟨trivial, ?_, fun j hj => h3 j (Or.inr hj)⟩
  rw [h4, cellsOf_snd _ _ _ hz]

theorem text128_plain : ∀ c ∈ text128, c ≠ 0 ∧ c ≠ 46 := by
  intro c hc
  have := List.eq_of_mem_replicate hc
  subst this; decide

theorem cellsOf_text129 (font : Nat → Nat) :
    cellsOf font text129 0 = cellsOf font text128 0 ++ [(128, glyph font 66)] := by
  rw [text129, ← text128, cellsOf_append font text128 [66] 0 (fun c hc => (text128_plain c hc).1)
    (by simp)]
  have hl : text128.length = 128 := List.length_replicate _ _
  rw [hl]
  congr 1

theorem validCharCount_text128 : validCharCount text128 = 128 := by
  rw [validCharCount_plain _ (fun c hc => (text128_plain c hc).2)]
  exact List.length_replicate _ _

theorem validCharCount_text129 : validCharCount text129 = 129 := by
  rw [validCharCount_plain]
  · rw [text129, List.length_append, List.length_replicate]; rfl
  · intro c hc
    simp only [text129, List.mem_append, List.mem_singleton] at hc
    rcases hc with hc | hc
    · exact (text128_plain c hc).2
    · subst hc; decide

theorem text128_length : text128.length = 128 := List.length_replicate _ _

theorem print_fill_wrap (font : Nat → Nat) (d : HT16K33AlphaDisplay) (str : List Nat)
    (hc : d.c_scroll = false) (hcap : 256 ≤ d.custom_buffer) :
    (print font d str).buffer_fill =
      (d.buffer_fill % 256 + 2 * (cellsOf font str 0).length) % 256 := by
  show (printRun font d str).pos = _
  rw [printRun_eq_storeLoop _ _ _ hc,
    storeLoop_pos_wrap _ hcap _ _ _ (Nat.mod_lt _ (by decide))]

/-- Scenario C of the specification: `12.3` is encoded as three cells, the
second one carrying the decimal point. -/
theorem print_scenarioC (font : Nat → Nat) :
    (print font (initial 2 64 false 0 0 0) [49, 50, 46, 51]).buffer_fill = 6 ∧
    readBytes (print font (initial 2 64 false 0 0 0) [49, 50, 46, 51]).buffer 0 6 =
      cellBytes [glyph font 49, glyph font 50 ||| 0x4000, glyph font 51] := by
  obtain ⟨h1, h2, _⟩ := print_of_fits_below_256 font (initial 2 64 false 0 0 0) [49, 50, 46, 51]
    rfl rfl (by decide) (by decide) (by decide)
  have e : 2 * validCharCount [49, 50, 46, 51] = 6 := by decide
  rw [e] at h1
  rw [h1] at h2
  exact ⟨h1, h2⟩

/-- C1, at the input where the code departs from it: with a capacity of 256
bytes the text of 128 letters `A` has no zero byte and its encoded length
`2 * validCharCount = 256` is at most the capacity, yet `print` from fill 0
with continuous scroll off ends with fill 0, because the 8-bit cursor wraps
from 254 to 0. -/
theorem print_fill_wraps_at_256 (font : Nat → Nat) :
    (∀ c ∈ text128, c ≠ 0) ∧
    2 * validCharCount text128 ≤ (initial 32 256 false 0 0 0).custom_buffer ∧
    2 * validCharCount text128 = 256 ∧
    (print font (initial 32 256 false 0 0 0) text128).buffer_fill = 0 := by
  refine ⟨fun c hc => (text128_plain c hc).1, ?_, ?_, ?_⟩
  · rw [validCharCount_text128]; exact Nat.le_refl 256
  · rw [validCharCount_text128]
  · rw [print_fill_wrap _ _ _ rfl (Nat.le_refl 256), cellsOf_length_plain _ _ _ text128_plain,
      text128_length]
    rfl


theorem storeLoop_text129 (font : Nat → Nat) (cap : Nat) (hcap : 256 ≤ cap) (b : Nat → Nat) :
    (storeLoop cap (cellsOf font text129 0) 0 b).buffer 0 = glyph font 66 % 256 ∧
    (storeLoop cap (cellsOf font text129 0) 0 b).buffer 1 = glyph font 66 / 256 % 256 ∧
    (storeLoop cap (cellsOf font text129 0) 0 b).pos = 2 ∧
    (storeLoop cap (cellsOf font text129 0) 0 b).cells.length = 129 := by
  obtain ⟨h1, h2, h3, h4⟩ := storeLoop_wrap_last cap (by omega) (cellsOf font text128 0) 128
    (glyph font 66) 0 b (by decide) (by decide)
  have hl : (cellsOf font text128 0).length = 128 := by
    rw [cellsOf_length_plain _ _ _ text128_plain, text128_length]
  have hc := storeLoop_cells_length_wrap cap hcap (cellsOf font text128 0) 0 b (by decide)
  rw [← cellsOf_text129] at h1 h2 h3 h4
  rw [hl] at h1 h2 h3
  rw [hc, hl] at h4
  exact ⟨h1, h2, h3, h4⟩

theorem print_text129 (font : Nat → Nat) (cap w : Nat) (hcap : 256 ≤ cap) :
    (print font (initial w cap false 0 0 0) text129).buffer 0 = glyph font 66 % 256 ∧
    (print font (initial w cap false 0 0 0) text129).buffer 1 = glyph font 66 / 256 % 256 ∧
    (print font (initial w cap false 0 0 0) text129).buffer_fill = 2 ∧
    (printRun font (initial w cap false 0 0 0) text129).cells.length = 129 := by
  have h := storeLoop_text129 font cap hcap (fun _ => 0)
  have e : printRun font (initial w cap false 0 0 0) text129 =
      storeLoop cap (cellsOf font text129 0) 0 (fun _ => 0) :=
    printRun_eq_storeLoop font (initial w cap false 0 0 0) text129 rfl
  simp only [print, e]
  exact h

/-- C2, at the input where the code departs from it: with a capacity of 512
bytes the text of 128 letters `A` followed by `B` fits (encoded length 258),
yet `print` from fill 0 ends with fill 2 and the two bytes below the fill are
the cell of `B`, stored over the first `A`; the reference sequence has 129
cells, that is 258 bytes, so the bytes below the fill are not the reference
cell sequence. -/
theorem print_bytes_wrap_at_256 (font : Nat → Nat) :
    (∀ c ∈ text129, c ≠ 0) ∧
    2 * validCharCount text129 ≤ (initial 64 512 false 0 0 0).custom_buffer ∧
    (print font (initial 64 512 false 0 0 0) text129).buffer_fill = 2 ∧
    readBytes (print font (initial 64 512 false 0 0 0) text129).buffer 0
        (print font (initial 64 512 false 0 0 0) text129).buffer_fill =
      cellBytes [glyph font 66] ∧
    (cellBytes (refCells font text129)).length = 258 ∧
    readBytes (print font (initial 64 512 false 0 0 0) text129).buffer 0
        (print font (initial 64 512 false 0 0 0) text129).buffer_fill ≠
      cellBytes (refCells font text129) := by
  obtain ⟨h0, h1, h2, _⟩ := print_text129 font 512 64 (by decide)
  have hlen : (cellBytes (refCells font text129)).length = 258 := by
    rw [cellBytes_length, refCells_length, validCharCount_text129]
  have hbytes : readBytes (print font (initial 64 512 false 0 0 0) text129).buffer 0
        (print font (initial 64 512 false 0 0 0) text129).buffer_fill =
      cellBytes [glyph font 66] := by
    rw [h2, readBytes_succ, readBytes_succ, h0, h1]; rfl
  refine ⟨?_, ?_, h2, hbytes, hlen, ?_⟩
  · intro c hc
    simp only [text129, List.mem_append, List.mem_singleton] at hc
    rcases hc with hc | hc
    · exact (text128_plain c hc).1
    · subst hc; decide
  · rw [validCharCount_text129]; show 258 ≤ 512; decide
  · intro hEq
    have := congrArg List.length hEq
    rw [hlen, hbytes] at this
    simp [cellBytes] at this

/-- C3, at the input where the code departs from it: with a capacity of
`32 * 8 = 256` bytes and the text of 128 letters `A` followed by `B`, whose
encoded length 258 exceeds the capacity, `print` from fill 0 does not stop
after 128 cells: it stores all 129, the last one over the first at bytes 0
and 1, and ends with fill 2. -/
theorem print_overflow_wraps_at_256 (font : Nat → Nat) :
    (initial 32 256 false 0 0 0).custom_buffer = 32 * 8 ∧
    (initial 32 256 false 0 0 0).custom_buffer < 2 * validCharCount text129 ∧
    (printRun font (initial 32 256 false 0 0 0) text129).cells.length = 129 ∧
    (print font (initial 32 256 false 0 0 0) text129).buffer_fill = 2 ∧
    (print font (initial 32 256 false 0 0 0) text129).buffer 0 = glyph font 66 % 256 ∧
    (print font (initial 32 256 false 0 0 0) text129).buffer 1 = glyph font 66 / 256 % 256 := by
  obtain ⟨h0, h1, h2, h3⟩ := print_text129 font 256 32 (Nat.le_refl _)
  refine ⟨rfl, ?_, h3, h2, h0, h1⟩
  rw [validCharCount_text129]; show 256 < 258; decide


/-! ### Capacities below the wrap of the cursor -/

theorem storeLoop_truncates (cap : Nat) (cs : List (Nat × Nat)) (pos : Nat) (b : Nat → Nat)
    (hpos : pos ≤ cap) (hpar : (cap - pos) % 2 = 0) (hcap : cap < 256)
    (hlong : cap < pos + 2 * cs.length) :
    (storeLoop cap cs pos b).pos = cap ∧
    (storeLoop cap cs pos b).buffer =
      (storeLoop cap (cs.take ((cap - pos) / 2)) pos b).buffer ∧
    (storeLoop cap cs pos b).cells =
      (storeLoop cap (cs.take ((cap - pos) / 2)) pos b).cells ∧
    (storeLoop cap cs pos b).cells.length = (cap - pos) / 2 := by
  have hlen : (cs.take ((cap - pos) / 2)).length = (cap - pos) / 2 := by
    rw [List.length_take]; omega
  obtain ⟨f1, f2, _, _⟩ := storeLoop_fits cap (cs.take ((cap - pos) / 2)) pos b
    (by rw [hlen]; omega) (by rw [hlen]; omega)
  have e := storeLoop_append cap (cs.take ((cap - pos) / 2)) (cs.drop ((cap - pos) / 2)) pos b
  rw [List.take_append_drop] at e
  have hfull : cap ≤ (storeLoop cap (cs.take ((cap - pos) / 2)) pos b).pos := by
    rw [f1, hlen]; omega
  rw [storeLoop_full cap _ _ _ hfull] at e
  rw [e]
  refine ⟨?_, rfl, by simp, ?_⟩
  · show (storeLoop cap (cs.take ((cap - pos) / 2)) pos b).pos = cap
    rw [f1, hlen]; omega
  · show ((storeLoop cap (cs.take ((cap - pos) / 2)) pos b).cells ++ []).length = _
    rw [List.append_nil, f2, hlen]

/-- Below the wrap of the 8-bit cursor a text longer than an even capacity is
cut after the last cell that fits: the fill is the capacity, the buffer holds
the first `capacity / 2` reference cells, and no byte at or past the capacity
changes. -/
theorem print_truncates_below_256 (font : Nat → Nat) (d : HT16K33AlphaDisplay) (t : List Nat)
    (hc : d.c_scroll = false) (hfill : d.buffer_fill = 0) (hz : ∀ c ∈ t, c ≠ 0)
    (heven : d.custom_buffer % 2 = 0) (hcap : d.custom_buffer < 256)
    (hlong : d.custom_buffer < 2 * validCharCount t) :
    (print font d t).buffer_fill = d.custom_buffer ∧
    (printRun font d t).cells.length = d.custom_buffer / 2 ∧
    readBytes (print font d t).buffer 0 d.custom_buffer =
      cellBytes ((refCells font t).take (d.custom_buffer / 2)) ∧
    ∀ j, d.custom_buffer ≤ j → (print font d t).buffer j = d.buffer j := by
  have hl := cellsOf_length font t 0 hz
  obtain ⟨t1, t2, _, t4⟩ := storeLoop_truncates d.custom_buffer (cellsOf font t 0) 0 d.buffer
    (Nat.zero_le _) (by omega) hcap (by rw [hl]; omega)
  have hlen : ((cellsOf font t 0).take (d.custom_buffer / 2)).length = d.custom_buffer / 2 := by
    rw [List.length_take, hl]; omega
  obtain ⟨_, _, f3, f4⟩ := storeLoop_fits d.custom_buffer
    ((cellsOf font t 0).take (d.custom_buffer / 2)) 0 d.buffer
    (by rw [hlen]; omega) (by rw [hlen]; omega)
  have hr := printRun_eq_storeLoop font d t hc
  rw [hfill] at hr
  have hp : print font d t =
      { d with buffer := (storeLoop d.custom_buffer (cellsOf font t 0) 0 d.buffer).buffer,
               buffer_fill := (storeLoop d.custom_buffer (cellsOf font t 0) 0 d.buffer).pos } := by
    rw [print, hr]
  rw [hp, hr]
  simp only [Nat.sub_zero, Nat.zero_add, hlen] at t1 t2 t4 f3 f4 ⊢
  refine ⟨t1, t4, ?_, ?_⟩
  · rw [t2]
    have e : 2 * (d.custom_buffer / 2) = d.custom_buffer := by omega
    rw [e] at f4
    rw [f4, List.map_take, cellsOf_snd _ _ _ hz]
  · intro j hj
    rw [t2]
    exact f3 j (by omega)

/-! ## update -/

theorem cellsOf_text128 (font : Nat → Nat) :
    cellsOf font text128 0 =
      cellsOf font (List.replicate 127 65) 0 ++ [(127, glyph font 65)] := by
  have hz : ∀ c ∈ List.replicate 127 65, c ≠ 0 := by
    intro c hc
    have := List.eq_of_mem_replicate hc
    subst this; decide
  have e : text128 = List.replicate 127 65 ++ [65] := List.replicate_succ' 127 65
  rw [e, cellsOf_append font (List.replicate 127 65) [65] 0 hz (by simp), List.length_replicate]
  congr 1

theorem storeLoop_text128 (font : Nat → Nat) (cap : Nat) (hcap : 255 ≤ cap) (b : Nat → Nat) :
    (storeLoop cap (cellsOf font text128 0) 0 b).buffer 254 = glyph font 65 % 256 ∧
    (storeLoop cap (cellsOf font text128 0) 0 b).buffer 255 = glyph font 65 / 256 % 256 ∧
    (storeLoop cap (cellsOf font text128 0) 0 b).pos = 0 := by
  obtain ⟨h1, h2, h3, _⟩ := storeLoop_wrap_last cap hcap (cellsOf font (List.replicate 127 65) 0)
    127 (glyph font 65) 0 b (by decide) (by decide)
  have hl : (cellsOf font (List.replicate 127 65) 0).length = 127 := by
    rw [cellsOf_length_plain, List.length_replicate]
    intro c hc
    have := List.eq_of_mem_replicate hc
    subst this; decide
  rw [← cellsOf_text128] at h1 h2 h3
  rw [hl] at h1 h2 h3
  exact ⟨h1, h2, h3⟩

theorem update_buffer (d : HT16K33AlphaDisplay) (writer : HT16K33AlphaDisplay → HT16K33AlphaDisplay)
    (now : Nat) :
    (update d writer now).buffer =
      (writer { d with buffer := memset0 d.buffer d.custom_buffer, buffer_fill := 0 }).buffer := by
  unfold update display_
  dsimp only
  split <;> rfl

theorem update_buffer_fill (d : HT16K33AlphaDisplay)
    (writer : HT16K33AlphaDisplay → HT16K33AlphaDisplay) (now : Nat) :
    (update d writer now).buffer_fill =
      (writer { d with buffer := memset0 d.buffer d.custom_buffer, buffer_fill := 0 }).buffer_fill := by
  unfold update display_
  dsimp only
  split <;> rfl

/-- The print loop as `update` runs it for a writer that prints `t`: from
cursor 0 on the cleared buffer. -/
theorem update_print_result (font : Nat → Nat) (d : HT16K33AlphaDisplay) (t : List Nat)
    (now : Nat) :
    (update d (fun x => print font x t) now).buffer =
      (storeLoop d.custom_buffer (cellsOf font (scrollText d t) 0) 0
        (memset0 d.buffer d.custom_buffer)).buffer ∧
    (update d (fun x => print font x t) now).buffer_fill =
      (storeLoop d.custom_buffer (cellsOf font (scrollText d t) 0) 0
        (memset0 d.buffer d.custom_buffer)).pos := by
  rw [update_buffer, update_buffer_fill, ← printLoop_eq_storeLoop]
  exact ⟨rfl, rfl⟩

theorem update_print_config (font : Nat → Nat) (d : HT16K33AlphaDisplay) (t : List Nat)
    (now : Nat) :
    (update d (fun x => print font x t) now).custom_buffer = d.custom_buffer ∧
    scrollText (update d (fun x => print font x t) now) t = scrollText d t := by
  unfold update display_ print
  dsimp only
  split <;> exact ⟨rfl, rfl⟩

theorem storeLoop_untouched (cap : Nat) (hcap : cap ≤ 254) (cs : List (Nat × Nat)) (pos : Nat)
    (b : Nat → Nat) :
    pos ≤ (storeLoop cap cs pos b).pos ∧
    ∀ i, (storeLoop cap cs pos b).pos ≤ i → (storeLoop cap cs pos b).buffer i = b i := by
  induction cs generalizing pos b with
  | nil => exact ⟨Nat.le_refl _, fun _ _ => rfl⟩
  | cons c cs ih =>
    obtain ⟨k, f⟩ := c
    by_cases hfull : cap ≤ pos
    · rw [storeLoop_full cap _ _ _ hfull]
      exact ⟨Nat.le_refl _, fun _ _ => rfl⟩
    · have e1 : (pos + 1) % 256 = pos + 1 := by omega
      have e2 : (pos + 1 + 1) % 256 = pos + 2 := by omega
      simp only [storeLoop, ge_iff_le, hfull, if_false, storeCell, e1, e2]
      obtain ⟨h1, h2⟩ := ih (pos + 2)
        (Function.update (Function.update b pos (f % 256)) (pos + 1) (f / 256 % 256))
      refine ⟨by omega, fun i hi => ?_⟩
      rw [h2 i hi, Function.update_apply, Function.update_apply]
      have n1 : i ≠ pos + 1 := by omega
      have n2 : i ≠ pos := by omega
      simp [n1, n2]

/-- Below the wrap of the 8-bit cursor nothing but zero bytes lies between the
fill and the capacity after an update. -/
theorem update_blank_above_fill_below_255 (font : Nat → Nat) (d : HT16K33AlphaDisplay)
    (t : List Nat) (now : Nat) (hcap : d.custom_buffer ≤ 254) (i : Nat)
    (hi : (update d (fun x => print font x t) now).buffer_fill ≤ i)
    (hic : i < d.custom_buffer) :
    (update d (fun x => print font x t) now).buffer i = 0 := by
  obtain ⟨hb, hf⟩ := update_print_result font d t now
  rw [hf] at hi
  rw [hb, (storeLoop_untouched d.custom_buffer hcap _ 0 _).2 i hi]
  simp [memset0, hic]

/-- C6, at the input where the code departs from it: with a capacity of 256
bytes, after `update` with a writer that prints 128 letters `A` the fill is 0
while byte 254, at an index between the fill and the capacity, holds the low
byte of the font entry of `A` instead of zero. -/
theorem update_leaves_text_above_fill (font : Nat → Nat) (now : Nat) :
    (update (initial 32 256 false 0 0 0) (fun x => print font x text128) now).custom_buffer = 256 ∧
    (update (initial 32 256 false 0 0 0) (fun x => print font x text128) now).buffer_fill = 0 ∧
    (update (initial 32 256 false 0 0 0) (fun x => print font x text128) now).buffer 254 =
      font 65 % 256 := by
  obtain ⟨hb, hf⟩ := update_print_result font (initial 32 256 false 0 0 0) text128 now
  obtain ⟨hc, _⟩ := update_print_config font (initial 32 256 false 0 0 0) text128 now
  have hs : scrollText (initial 32 256 false 0 0 0) text128 = text128 := scrollText_off _ _ rfl
  obtain ⟨h1, _, h3⟩ := storeLoop_text128 font (initial 32 256 false 0 0 0).custom_buffer
    (Nat.le_succ 255)
    (memset0 (initial 32 256 false 0 0 0).buffer (initial 32 256 false 0 0 0).custom_buffer)
  rw [hs] at hb hf
  refine ⟨hc, ?_, ?_⟩
  · rw [hf]; exact h3
  · rw [hb]
    have hg : glyph font 65 % 256 = font 65 % 256 := by
      simp only [glyph]
      have : ¬ 65 > 127 := by decide
      rw [if_neg this]
      omega
    rw [← hg]
    exact h1

/-- The defect behind C6 does not need a capacity above 255: with the odd
capacity 255 the 128th cell is stored at bytes 254 and 255 and the cursor
wraps to 0 all the same. -/
theorem update_leaves_text_above_fill_at_255 (font : Nat → Nat) (now : Nat) :
    (update (initial 32 255 false 0 0 0) (fun x => print font x text128) now).buffer_fill = 0 ∧
    (update (initial 32 255 false 0 0 0) (fun x => print font x text128) now).buffer 254 =
      font 65 % 256 := by
  obtain ⟨hb, hf⟩ := update_print_result font (initial 32 255 false 0 0 0) text128 now
  have hs : scrollText (initial 32 255 false 0 0 0) text128 = text128 := scrollText_off _ _ rfl
  obtain ⟨h1, _, h3⟩ := storeLoop_text128 font (initial 32 255 false 0 0 0).custom_buffer
    (Nat.le_refl 255)
    (memset0 (initial 32 255 false 0 0 0).buffer (initial 32 255 false 0 0 0).custom_buffer)
  rw [hs] at hb hf
  refine ⟨by rw [hf]; exact h3, ?_⟩
  rw [hb]
  have hg : glyph font 65 % 256 = font 65 % 256 := by
    simp only [glyph]
    have : ¬ 65 > 127 := by decide
    rw [if_neg this]
    omega
  rw [← hg]
  exact h1

/-- C5 as stated fails: `print` does not start from an empty buffer, so
printing the same text twice in a row does not leave the fill of the first
call (one letter `A` from the empty buffer: fill 2, then fill 4). -/
theorem print_twice_not_idempotent :
    ¬ ∀ (font : Nat → Nat) (d : HT16K33AlphaDisplay) (t : List Nat),
      (print font (print font d t) t).buffer = (print font d t).buffer ∧
      (print font (print font d t) t).buffer_fill = (print font d t).buffer_fill := by
  intro h
  have h2 := (h (fun _ => 0) (initial 1 64 false 0 0 0) [65]).2
  revert h2
  decide

/-- C5, amended: for every controller state and every text `t`, running
`update` with a writer that prints `t` twice in a row leaves the buffer and
the fill of the first run, whatever the two timestamps. -/
theorem update_print_idempotent (font : Nat → Nat) (d : HT16K33AlphaDisplay) (t : List Nat)
    (now now2 : Nat) :
    (update (update d (fun x => print font x t) now) (fun x => print font x t) now2).buffer =
      (update d (fun x => print font x t) now).buffer ∧
    (update (update d (fun x => print font x t) now) (fun x => print font x t) now2).buffer_fill =
      (update d (fun x => print font x t) now).buffer_fill := by
  obtain ⟨hb, hf⟩ := update_print_result font d t now
  obtain ⟨hc, hs⟩ := update_print_config font d t now
  obtain ⟨hb2, hf2⟩ := update_print_result font (update d (fun x => print font x t) now) t now2
  rw [hb2, hf2, hc, hs, hb, hf]
  refine ⟨?_, storeLoop_pos_indep _ _ _ _ _⟩
  funext i
  rcases storeLoop_buffer_cases d.custom_buffer (cellsOf font (scrollText d t) 0) 0
    (memset0 (storeLoop d.custom_buffer (cellsOf font (scrollText d t) 0) 0
      (memset0 d.buffer d.custom_buffer)).buffer d.custom_buffer)
    (memset0 d.buffer d.custom_buffer) i with h | ⟨h1, h2⟩
  · exact h
  · rw [h1, h2]
    simp only [memset0]
    split
    · rfl
    · rw [h2]; simp only [memset0]; split <;> [contradiction; rfl]

/-! ## The decimal point -/

theorem cellsOf_src_ge (font : Nat → Nat) (str : List Nat) (i : Nat) (p : Nat × Nat)
    (hp : p ∈ cellsOf font str i) : i ≤ p.1 := by
  induction str, i using cellsOf.induct font with
  | case1 i => simp [cellsOf] at hp
  | case2 str i => unfold cellsOf at hp; simp at hp
  | case3 c i h0 =>
    simp only [cellsOf, h0, if_false, List.mem_singleton] at hp
    subst hp; exact Nat.le_refl _
  | case4 c i h0 str2 ih =>
    simp only [cellsOf, h0, if_false, if_true, List.mem_cons] at hp
    rcases hp with hp | hp
    · subst hp; exact Nat.le_refl _
    · have := ih hp; omega
  | case5 c i h0 c2 str2 h46 ih =>
    simp only [cellsOf, h0, h46, if_false, List.mem_cons] at hp
    rcases hp with hp | hp
    · subst hp; exact Nat.le_refl _
    · have := ih hp; omega

theorem testBit_lor_dp (g : Nat) : Nat.testBit (g ||| 0x4000) 14 = true := by
  rw [Nat.testBit_lor]
  have : Nat.testBit 0x4000 14 = true := by decide
  rw [this, Bool.or_true]

theorem cellsOf_dot (font : Nat → Nat) (str : List Nat) (i : Nat) (p : Nat × Nat)
    (hp : p ∈ cellsOf font str i) (k : Nat) (hk : p.1 = i + k)
    (hdot : str[k + 1]? = some 46) :
    (∃ c, str[k]? = some c ∧ p.2 = glyph font c ||| 0x4000) ∧
    ∀ q ∈ cellsOf font str i, q.1 ≠ p.1 + 1 := by
  induction str, i using cellsOf.induct font generalizing k with
  | case1 i => simp [cellsOf] at hp
  | case2 str i => unfold cellsOf at hp; simp at hp
  | case3 c i h0 => simp at hdot
  | case4 c i h0 str2 ih =>
    simp only [cellsOf, h0, if_false, if_true, List.mem_cons] at hp ⊢
    rcases hp with hp | hp
    · subst hp
      have hk0 : k = 0 := by simp only at hk; omega
      subst hk0
      refine ⟨⟨c, by simp, rfl⟩, ?_⟩
      intro q hq
      rcases hq with hq | hq
      · subst hq; simp
      · have := cellsOf_src_ge font str2 (i + 2) q hq
        simp only; omega
    · have hge := cellsOf_src_ge font str2 (i + 2) p hp
      obtain ⟨k2, rfl⟩ : ∃ k2, k = k2 + 2 := ⟨k - 2, by omega⟩
      have hdot2 : str2[k2 + 1]? = some 46 := by
        simpa using hdot
      obtain ⟨⟨c3, h1, h1b⟩, h2⟩ := ih hp k2 (by omega) hdot2
      refine ⟨⟨c3, by simpa using h1, h1b⟩, ?_⟩
      intro q hq
      rcases hq with hq | hq
      · subst hq; simp only; omega
      · exact h2 q hq
  | case5 c i h0 c2 str2 h46 ih =>
    simp only [cellsOf, h0, h46, if_false, List.mem_cons] at hp ⊢
    rcases hp with hp | hp
    · subst hp
      have hk0 : k = 0 := by simp only at hk; omega
      subst hk0
      simp at hdot
      exact absurd hdot h46
    · have hge := cellsOf_src_ge font (c2 :: str2) (i + 1) p hp
      obtain ⟨k2, rfl⟩ : ∃ k2, k = k2 + 1 := ⟨k - 1, by omega⟩
      have hdot2 : (c2 :: str2)[k2 + 1]? = some 46 := by
        simpa using hdot
      obtain ⟨⟨c3, h1, h1b⟩, h2⟩ := ih hp k2 (by omega) hdot2
      refine ⟨⟨c3, by simpa using h1, h1b⟩, ?_⟩
      intro q hq
      rcases hq with hq | hq
      · subst hq; simp only; omega
      · exact h2 q hq

theorem cstr_of_nonzero (t : List Nat) (hz : ∀ c ∈ t, c ≠ 0) : cstr t = t := by
  unfold cstr
  rw [List.takeWhile_eq_self_iff]
  intro c hc
  simpa using hz c hc

theorem scrollText_extends (d : HT16K33AlphaDisplay) (t : List Nat) (hz : ∀ c ∈ t, c ≠ 0) :
    ∃ tail, scrollText d t = t ++ tail := by
  unfold scrollText
  rw [cstr_of_nonzero t hz]
  dsimp only
  split
  · exact ⟨_, List.append_assoc _ _ _⟩
  · exact ⟨[], (List.append_nil t).symm⟩

theorem printRun_cells_sub (font : Nat → Nat) (d : HT16K33AlphaDisplay) (t : List Nat)
    (cell : Cell) (h : cell ∈ (printRun font d t).cells) :
    (cell.src, cell.fontc) ∈ cellsOf font (scrollText d t) 0 := by
  rw [printRun, printLoop_eq_storeLoop] at h
  exact storeLoop_cells_sub _ _ _ _ _ h

/-- C4 as stated fails: in the text `A..` the second `.` sits right after a
character (the first `.`), yet the loop encodes it as a cell of its own,
because the first `.` was consumed as the decimal point of `A`. -/
theorem dot_after_consumed_dot_is_a_cell :
    ¬ ∀ (font : Nat → Nat) (d : HT16K33AlphaDisplay) (t : List Nat) (i : Nat),
      (∀ c ∈ t, c ≠ 0) → i < t.length → t[i + 1]? = some 46 →
      (∀ cell ∈ (printRun font d t).cells, cell.src = i → Nat.testBit cell.fontc 14 = true) ∧
      (∀ cell ∈ (printRun font d t).cells, cell.src ≠ i + 1) := by
  intro h
  have h2 := (h (fun _ => 0) (initial 1 64 false 0 0 0) [65, 46, 46] 1 (by decide) (by decide)
    (by decide)).2
  revert h2
  decide

/-- C4, amended: for every text `t` without zero bytes and every cell that
`print` stores, if the character right after the encoded one is `.` then the
stored pattern is the glyph of the encoded character with the decimal-point
bit `0x4000` set, and no cell is stored for that `.`. -/
theorem dot_sets_decimal_point (font : Nat → Nat) (d : HT16K33AlphaDisplay) (t : List Nat)
    (hz : ∀ c ∈ t, c ≠ 0) (cell : Cell) (hcell : cell ∈ (printRun font d t).cells)
    (hdot : t[cell.src + 1]? = some 46) :
    (∃ c, t[cell.src]? = some c ∧ cell.fontc = glyph font c ||| 0x4000) ∧
    Nat.testBit cell.fontc 14 = true ∧
    ∀ cell2 ∈ (printRun font d t).cells, cell2.src ≠ cell.src + 1 := by
  obtain ⟨tail, htail⟩ := scrollText_extends d t hz
  have hlt : cell.src + 1 < t.length := by
    by_contra hge
    rw [List.getElem?_eq_none (by omega)] at hdot
    exact absurd hdot (by simp)
  have hsub := printRun_cells_sub font d t cell hcell
  have hdot2 : (scrollText d t)[cell.src + 1]? = some 46 := by
    rw [htail, List.getElem?_append_left hlt]; exact hdot
  obtain ⟨⟨c, hc, hf⟩, hno⟩ := cellsOf_dot font (scrollText d t) 0 (cell.src, cell.fontc) hsub
    cell.src (by simp) hdot2
  rw [htail, List.getElem?_append_left (by omega)] at hc
  refine ⟨⟨c, hc, hf⟩, ?_, ?_⟩
  · simp only at hf
    rw [hf]; exact testBit_lor_dp _
  · intro cell2 h2
    exact hno (cell2.src, cell2.fontc) (printRun_cells_sub font d t cell2 h2)

/-- The amended C4 on `12.3`: the cell of `2` carries the decimal point and
the `.` at index 2 gets no cell. -/
theorem dot_sets_decimal_point_witness :
    (∀ c ∈ [49, 50, 46, 51], c ≠ 0) ∧
    (⟨1, 2, 16434⟩ : Cell) ∈ (printRun (fun c => c) (initial 1 64 false 0 0 0) [49, 50, 46, 51]).cells ∧
    [49, 50, 46, 51][1 + 1]? = some 46 ∧
    ((∃ c, [49, 50, 46, 51][1]? = some c ∧ 16434 = glyph (fun c => c) c ||| 0x4000) ∧
      Nat.testBit 16434 14 = true ∧
      ∀ cell2 ∈ (printRun (fun c => c) (initial 1 64 false 0 0 0) [49, 50, 46, 51]).cells,
        cell2.src ≠ 1 + 1) :=
  ⟨by decide, by decide, by decide,
    dot_sets_decimal_point (fun c => c) (initial 1 64 false 0 0 0) [49, 50, 46, 51] (by decide)
      ⟨1, 2, 16434⟩ (by decide) (by decide)⟩

/-! ## loop -/

theorem toNat_max_sub (a b : Nat) : (max ((a : Int) - (b : Int)) 0).toNat = a - b := by
  omega

/-- The offset after the shrink guard of `loop`. -/
theorem loop_fields (d : HT16K33AlphaDisplay) (now : Nat) :
    (loop d now).buffer_fill = d.buffer_fill ∧ (loop d now).displays = d.displays ∧
    (loop d now).scroll = d.scroll ∧ (loop d now).buffer = d.buffer ∧
    (loop d now).scroll_delay = d.scroll_delay ∧ (loop d now).scroll_dwell = d.scroll_dwell ∧
    (loop d now).scroll_speed = d.scroll_speed := by
  unfold loop display_
  dsimp only
  split_ifs <;> simp

theorem loop_offset_bound (d : HT16K33AlphaDisplay) (now : Nat)
    (ho : d.offset % 2 = 0) (hf : d.buffer_fill % 2 = 0) :
    (loop d now).offset % 2 = 0 ∧ (loop d now).offset ≤ d.buffer_fill - d.displays * 8 := by
  unfold loop display_
  simp only [toNat_max_sub]
  split_ifs <;> simp_all <;> omega

/-! ## Calls and the scroll state -/

theorem print_fields (font : Nat → Nat) (d : HT16K33AlphaDisplay) (t : List Nat) :
    (print font d t).offset = d.offset ∧ (print font d t).last_scroll = d.last_scroll ∧
    (print font d t).scroll = d.scroll ∧ (print font d t).displays = d.displays ∧
    (print font d t).bus = d.bus ∧ (print font d t).buffer_fill % 2 = d.buffer_fill % 2 := by
  refine ⟨rfl, rfl, rfl, rfl, rfl, ?_⟩
  show (printRun font d t).pos % 2 = _
  rw [printRun, printLoop_eq_storeLoop, storeLoop_pos_parity]
  omega

theorem printAll_fields (font : Nat → Nat) (texts : List (List Nat)) (d : HT16K33AlphaDisplay) :
    (printAll font texts d).offset = d.offset ∧
    (printAll font texts d).last_scroll = d.last_scroll ∧
    (printAll font texts d).scroll = d.scroll ∧ (printAll font texts d).displays = d.displays ∧
    (printAll font texts d).bus = d.bus ∧
    (printAll font texts d).buffer_fill % 2 = d.buffer_fill % 2 := by
  induction texts generalizing d with
  | nil => exact ⟨rfl, rfl, rfl, rfl, rfl, rfl⟩
  | cons t texts ih =>
    obtain ⟨h1, h2, h3, h4, h5, h6⟩ := ih (print font d t)
    obtain ⟨p1, p2, p3, p4, p5, p6⟩ := print_fields font d t
    simp only [printAll, List.foldl_cons] at *
    exact ⟨h1.trans p1, h2.trans p2, h3.trans p3, h4.trans p4, h5.trans p5, h6.trans p6⟩

theorem update_parity (font : Nat → Nat) (d : HT16K33AlphaDisplay) (texts : List (List Nat))
    (now : Nat) (ho : d.offset % 2 = 0) :
    (update d (printAll font texts) now).offset % 2 = 0 ∧
    (update d (printAll font texts) now).buffer_fill % 2 = 0 := by
  obtain ⟨h1, _, _, _, _, h6⟩ := printAll_fields font texts
    { d with buffer := memset0 d.buffer d.custom_buffer, buffer_fill := 0 }
  unfold update display_
  dsimp only
  split
  · exact ⟨rfl, h6⟩
  · exact ⟨h1.symm ▸ ho, h6⟩

theorem perform_parity (font : Nat → Nat) (d : HT16K33AlphaDisplay) (call : Call)
    (ho : d.offset % 2 = 0) (hf : d.buffer_fill % 2 = 0) :
    (perform font d call).offset % 2 = 0 ∧ (perform font d call).buffer_fill % 2 = 0 := by
  cases call with
  | update texts now => exact update_parity font d texts now ho
  | print text =>
    obtain ⟨p1, _, _, _, _, p6⟩ := print_fields font d text
    exact ⟨p1.symm ▸ ho, p6.trans hf⟩
  | loop now =>
    exact ⟨(loop_offset_bound d now ho hf).1, (loop_fields d now).1.symm ▸ hf⟩

theorem performAll_parity (font : Nat → Nat) (calls : List Call) (d : HT16K33AlphaDisplay)
    (ho : d.offset % 2 = 0) (hf : d.buffer_fill % 2 = 0) :
    (performAll font d calls).offset % 2 = 0 ∧ (performAll font d calls).buffer_fill % 2 = 0 := by
  induction calls generalizing d with
  | nil => exact ⟨ho, hf⟩
  | cons call calls ih =>
    obtain ⟨h1, h2⟩ := perform_parity font d call ho hf
    exact ih (perform font d call) h1 h2

/-- C7: in every state reached from an initial state (offset 0, fill 0) by
any sequence of `update`, `print` and `loop` calls at any timestamps, the
offset after a further `loop` is even and satisfies
`0 ≤ offset ≤ max (fill - displays * 8) 0`. -/
theorem scroll_invariant (font : Nat → Nat) (d : HT16K33AlphaDisplay) (calls : List Call)
    (now : Nat) (ho : d.offset = 0) (hf : d.buffer_fill = 0) :
    (loop (performAll font d calls) now).offset % 2 = 0 ∧
    (0 : Int) ≤ ((loop (performAll font d calls) now).offset : Int) ∧
    ((loop (performAll font d calls) now).offset : Int) ≤
      max (((loop (performAll font d calls) now).buffer_fill : Int) -
        (((loop (performAll font d calls) now).displays * 8 : Nat) : Int)) 0 := by
  obtain ⟨h1, h2⟩ := performAll_parity font calls d (by rw [ho]) (by rw [hf])
  obtain ⟨h3, h4⟩ := loop_offset_bound (performAll font d calls) now h1 h2
  obtain ⟨h5, h6, _⟩ := loop_fields (performAll font d calls) now
  rw [h5, h6]
  refine ⟨h3, by omega, ?_⟩
  omega

/-- The scroll invariant after an update, a tick, a direct print and a
second tick on two windows. -/
theorem scroll_invariant_witness :
    (initial 2 64 true 1000 500 200).offset = 0 ∧
    (initial 2 64 true 1000 500 200).buffer_fill = 0 ∧
    (loop (performAll (fun c => c) (initial 2 64 true 1000 500 200)
        [Call.update [[65, 66]] 0, Call.loop 10, Call.print [67]]) 2000).offset % 2 = 0 ∧
    (0 : Int) ≤ ((loop (performAll (fun c => c) (initial 2 64 true 1000 500 200)
        [Call.update [[65, 66]] 0, Call.loop 10, Call.print [67]]) 2000).offset : Int) ∧
    ((loop (performAll (fun c => c) (initial 2 64 true 1000 500 200)
        [Call.update [[65, 66]] 0, Call.loop 10, Call.print [67]]) 2000).offset : Int) ≤
      max (((loop (performAll (fun c => c) (initial 2 64 true 1000 500 200)
        [Call.update [[65, 66]] 0, Call.loop 10, Call.print [67]]) 2000).buffer_fill : Int) -
        (((loop (performAll (fun c => c) (initial 2 64 true 1000 500 200)
        [Call.update [[65, 66]] 0, Call.loop 10, Call.print [67]]) 2000).displays * 8 : Nat) : Int)) 0 :=
  ⟨rfl, rfl, scroll_invariant (fun c => c) (initial 2 64 true 1000 500 200)
    [Call.update [[65, 66]] 0, Call.loop 10, Call.print [67]] 2000 rfl rfl⟩

/-! ### Ticks on content that fits -/

theorem loop_offset_of_fits (d : HT16K33AlphaDisplay) (now : Nat)
    (h : d.buffer_fill ≤ d.displays * 8) : (loop d now).offset = 0 := by
  unfold loop display_
  simp only [toNat_max_sub]
  split_ifs <;> simp_all
  all_goals omega

theorem ticks_offset_of_fits (nows : List Nat) (d : HT16K33AlphaDisplay)
    (h : d.buffer_fill ≤ d.displays * 8) (ho : d.offset = 0) : (ticks d nows).offset = 0 := by
  induction nows generalizing d with
  | nil => exact ho
  | cons now nows ih =>
    obtain ⟨h1, h2, _⟩ := loop_fields d now
    exact ih (loop d now) (by rw [h1, h2]; exact h) (loop_offset_of_fits d now h)

/-- C9: for every state whose fill is at most `displays * 8`, whatever the
scroll flag, the timing parameters and the timestamps, the offset is 0 after
a tick and still 0 after any number of further ticks. -/
theorem fitting_content_never_scrolls (d : HT16K33AlphaDisplay) (now : Nat) (nows : List Nat)
    (h : d.buffer_fill ≤ d.displays * 8) :
    (loop d now).offset = 0 ∧ (ticks (loop d now) nows).offset = 0 := by
  obtain ⟨h1, h2, _⟩ := loop_fields d now
  exact ⟨loop_offset_of_fits d now h,
    ticks_offset_of_fits nows (loop d now) (by rw [h1, h2]; exact h) (loop_offset_of_fits d now h)⟩

/-- Scenario A of the specification: two windows and the text `AB`, fill 4. -/
theorem fitting_content_never_scrolls_witness :
    (print (fun c => c) (initial 2 64 true 1000 500 200) [65, 66]).buffer_fill = 4 ∧
    (print (fun c => c) (initial 2 64 true 1000 500 200) [65, 66]).buffer_fill ≤
      (print (fun c => c) (initial 2 64 true 1000 500 200) [65, 66]).displays * 8 ∧
    (loop (print (fun c => c) (initial 2 64 true 1000 500 200) [65, 66]) 5000).offset = 0 ∧
    (ticks (loop (print (fun c => c) (initial 2 64 true 1000 500 200) [65, 66]) 5000)
      [5200, 5400, 9000]).offset = 0 :=
  ⟨by decide, by decide,
    fitting_content_never_scrolls (print (fun c => c) (initial 2 64 true 1000 500 200) [65, 66])
      5000 [5200, 5400, 9000] (by decide)⟩

/-! ### update and the scroll state -/

/-- C10: for every state, `update` with a writer that prints texts sets
`offset = 0` and `last_scroll = now` when scrolling is enabled and the new
fill differs from the previous one, leaves both unchanged when scrolling is
disabled or the fill is the same, and in every case appends to the bus the
render of the new buffer at the resulting offset, whatever the timestamps. -/
theorem update_resets_scroll (font : Nat → Nat) (d : HT16K33AlphaDisplay)
    (texts : List (List Nat)) (now : Nat) :
    (d.scroll = true → (update d (printAll font texts) now).buffer_fill ≠ d.buffer_fill →
      (update d (printAll font texts) now).offset = 0 ∧
      (update d (printAll font texts) now).last_scroll = now) ∧
    (d.scroll = false ∨ (update d (printAll font texts) now).buffer_fill = d.buffer_fill →
      (update d (printAll font texts) now).offset = d.offset ∧
      (update d (printAll font texts) now).last_scroll = d.last_scroll) ∧
    (update d (printAll font texts) now).bus =
      d.bus ++ displayWrites (update d (printAll font texts) now).buffer
        (List.range d.displays) (update d (printAll font texts) now).offset := by
  obtain ⟨h1, h2, h3, h4, h5, _⟩ := printAll_fields font texts
    { d with buffer := memset0 d.buffer d.custom_buffer, buffer_fill := 0 }
  simp only at h1 h2 h3 h4 h5
  unfold update display_
  dsimp only
  split
  · rename_i hc
    have hc2 : d.scroll = true ∧
        d.buffer_fill ≠ (printAll font texts
          { d with buffer := memset0 d.buffer d.custom_buffer, buffer_fill := 0 }).buffer_fill := by
      simpa [h3] using hc
    refine ⟨fun _ _ => ⟨rfl, rfl⟩, ?_, ?_⟩
    · rintro (hs | hs)
      · rw [hc2.1] at hs; exact absurd hs (by simp)
      · exact absurd hs.symm hc2.2
    · rw [h5, h4]
  · rename_i hc
    have hc2 : d.scroll = true →
        d.buffer_fill = (printAll font texts
          { d with buffer := memset0 d.buffer d.custom_buffer, buffer_fill := 0 }).buffer_fill := by
      simpa [h3] using hc
    refine ⟨fun hs hne => absurd (hc2 hs).symm hne, fun _ => ⟨h1, h2⟩, ?_⟩
    rw [h5, h4]

/-! ### The scroll cycle -/

/-- The body of `loop` when the shrink guard does not fire. -/
theorem loop_no_shrink (d : HT16K33AlphaDisplay) (now : Nat)
    (h : d.offset + d.displays * 8 ≤ d.buffer_fill) :
    loop d now =
      if !d.scroll || d.buffer_fill ≤ d.displays * 8 then d
      else if d.offset = 0 && elapsed now d.last_scroll < d.scroll_delay then d
      else if d.offset + d.displays * 8 ≥ d.buffer_fill then
        if elapsed now d.last_scroll ≥ d.scroll_dwell then
          display_ { d with offset := 0, last_scroll := now }
        else d
      else if elapsed now d.last_scroll ≥ d.scroll_speed then
        display_ { d with offset := d.offset + 2, last_scroll := now }
      else d := by
  have h1 : ¬ d.offset + d.displays * 8 > d.buffer_fill := by omega
  unfold loop
  simp only [h1, if_false]

theorem loop_hold_start (d : HT16K33AlphaDisplay) (now : Nat) (hs : d.scroll = true)
    (hfill : d.displays * 8 < d.buffer_fill) (ho : d.offset = 0)
    (ht : elapsed now d.last_scroll < d.scroll_delay) : loop d now = d := by
  rw [loop_no_shrink d now (by omega)]
  have h2 : ¬ d.buffer_fill ≤ d.displays * 8 := by omega
  simp [h2, hs, ho, ht]

theorem loop_advance (d : HT16K33AlphaDisplay) (now : Nat) (hs : d.scroll = true)
    (hmid : d.offset + d.displays * 8 < d.buffer_fill)
    (hd : d.offset = 0 → d.scroll_delay ≤ elapsed now d.last_scroll)
    (ht : d.scroll_speed ≤ elapsed now d.last_scroll) :
    loop d now = display_ { d with offset := d.offset + 2, last_scroll := now } := by
  rw [loop_no_shrink d now (by omega)]
  have h2 : ¬ d.buffer_fill ≤ d.displays * 8 := by omega
  have h3 : ¬ d.buffer_fill ≤ d.offset + d.displays * 8 := by omega
  have h4 : ¬ (d.offset = 0 ∧ elapsed now d.last_scroll < d.scroll_delay) := by
    rintro ⟨h, h5⟩
    have := hd h
    omega
  simp [h2, h3, h4, hs, ht]

theorem loop_idle_mid (d : HT16K33AlphaDisplay) (now : Nat) (hs : d.scroll = true)
    (hmid : d.offset + d.displays * 8 < d.buffer_fill)
    (ht : elapsed now d.last_scroll < d.scroll_speed) : loop d now = d := by
  rw [loop_no_shrink d now (by omega)]
  have h2 : ¬ d.buffer_fill ≤ d.displays * 8 := by omega
  have h3 : ¬ d.buffer_fill ≤ d.offset + d.displays * 8 := by omega
  have h4 : ¬ d.scroll_speed ≤ elapsed now d.last_scroll := by omega
  simp [h2, h3, h4, hs]

theorem loop_hold_end (d : HT16K33AlphaDisplay) (now : Nat) (hs : d.scroll = true)
    (hfill : d.displays * 8 < d.buffer_fill) (hend : d.offset + d.displays * 8 = d.buffer_fill)
    (ht : elapsed now d.last_scroll < d.scroll_dwell) : loop d now = d := by
  rw [loop_no_shrink d now (by omega)]
  have h2 : ¬ d.buffer_fill ≤ d.displays * 8 := by omega
  have h3 : d.buffer_fill ≤ d.offset + d.displays * 8 := by omega
  have h4 : ¬ d.scroll_dwell ≤ elapsed now d.last_scroll := by omega
  have h5 : ¬ d.offset = 0 := by omega
  simp [h2, h3, h4, h5, hs]

theorem loop_wrap (d : HT16K33AlphaDisplay) (now : Nat) (hs : d.scroll = true)
    (hfill : d.displays * 8 < d.buffer_fill) (hend : d.offset + d.displays * 8 = d.buffer_fill)
    (ht : d.scroll_dwell ≤ elapsed now d.last_scroll) :
    loop d now = display_ { d with offset := 0, last_scroll := now } := by
  rw [loop_no_shrink d now (by omega)]
  have h2 : ¬ d.buffer_fill ≤ d.displays * 8 := by omega
  have h3 : d.buffer_fill ≤ d.offset + d.displays * 8 := by omega
  have h5 : ¬ d.offset = 0 := by omega
  simp [h2, h3, h5, hs, ht]

theorem ticks_climb (nows : List Nat) (d : HT16K33AlphaDisplay) (hs : d.scroll = true)
    (hpos : 0 < d.offset) (hp : paced d.scroll_speed d.last_scroll nows = true)
    (hroom : d.offset + 2 * nows.length + d.displays * 8 ≤ d.buffer_fill) :
    (ticks d nows).offset = d.offset + 2 * nows.length ∧
    (ticks d nows).last_scroll = nows.getLastD d.last_scroll ∧
    (ticks d nows).scroll = d.scroll ∧ (ticks d nows).displays = d.displays ∧
    (ticks d nows).buffer_fill = d.buffer_fill ∧
    (ticks d nows).scroll_speed = d.scroll_speed ∧
    (ticks d nows).scroll_dwell = d.scroll_dwell := by
  induction nows generalizing d with
  | nil => exact ⟨rfl, rfl, rfl, rfl, rfl, rfl, rfl⟩
  | cons now nows ih =>
    simp only [paced, Bool.and_eq_true, decide_eq_true_eq] at hp
    simp only [List.length_cons] at hroom
    have hstep := loop_advance d now hs (by omega) (fun h => by omega) hp.1
    have e : ticks d (now :: nows) = ticks (loop d now) nows := rfl
    rw [e, hstep]
    obtain ⟨i1, i2, i3, i4, i5, i6, i7⟩ := ih
      (display_ { d with offset := d.offset + 2, last_scroll := now }) hs
      (Nat.succ_pos _) hp.2 (by show d.offset + 2 + 2 * nows.length + d.displays * 8 ≤ d.buffer_fill; omega)
    refine ⟨?_, ?_, i3, i4, i5, i6, i7⟩
    · rw [i1]; show d.offset + 2 + 2 * nows.length = d.offset + 2 * (now :: nows).length
      simp only [List.length_cons]; omega
    · rw [i2]; cases nows <;> rfl

/-- C8: with scrolling enabled, an even fill above `displays * 8` and offset
0, a tick before `scroll_delay` has elapsed changes nothing; ticks of which the
first comes at least `scroll_delay` and each at least `scroll_speed` after the
last transition raise the offset by 2 each, stamping the time, as long as
`offset + displays * 8 ≤ fill`; a tick before `scroll_speed` has elapsed
changes nothing; once `offset + displays * 8 = fill` a tick before
`scroll_dwell` has elapsed changes nothing and a tick after it wraps the
offset to 0; and the climb reaches `fill - displays * 8` exactly. -/
theorem scroll_cycle (d : HT16K33AlphaDisplay) (hs : d.scroll = true)
    (heven : d.buffer_fill % 2 = 0) (hfill : d.displays * 8 < d.buffer_fill)
    (ho : d.offset = 0) :
    (∀ now, elapsed now d.last_scroll < d.scroll_delay → loop d now = d) ∧
    (∀ (now : Nat) (nows : List Nat),
      d.scroll_delay ≤ elapsed now d.last_scroll →
      paced d.scroll_speed d.last_scroll (now :: nows) = true →
      2 * (nows.length + 1) + d.displays * 8 ≤ d.buffer_fill →
      (ticks d (now :: nows)).offset = 2 * (nows.length + 1) ∧
      (ticks d (now :: nows)).last_scroll = nows.getLastD now ∧
      (2 * (nows.length + 1) + d.displays * 8 < d.buffer_fill →
        ∀ t, elapsed t (nows.getLastD now) < d.scroll_speed →
          loop (ticks d (now :: nows)) t = ticks d (now :: nows)) ∧
      (2 * (nows.length + 1) + d.displays * 8 = d.buffer_fill →
        ∀ t,
          (elapsed t (nows.getLastD now) < d.scroll_dwell →
            loop (ticks d (now :: nows)) t = ticks d (now :: nows)) ∧
          (d.scroll_dwell ≤ elapsed t (nows.getLastD now) →
            (loop (ticks d (now :: nows)) t).offset = 0 ∧
            (loop (ticks d (now :: nows)) t).last_scroll = t))) ∧
    (∃ k, 2 * k + d.displays * 8 = d.buffer_fill ∧ 0 < k) := by
  refine ⟨fun now ht => loop_hold_start d now hs hfill ho ht, ?_, ?_⟩
  · intro now nows hdelay hp hroom
    simp only [paced, Bool.and_eq_true, decide_eq_true_eq] at hp
    have hstep := loop_advance d now hs (by omega) (fun _ => hdelay) hp.1
    have e : ticks d (now :: nows) = ticks (loop d now) nows := rfl
    obtain ⟨i1, i2, i3, i4, i5, i6, i7⟩ := ticks_climb nows
      (display_ { d with offset := d.offset + 2, last_scroll := now }) hs
      (Nat.succ_pos _) hp.2 (by show d.offset + 2 + 2 * nows.length + d.displays * 8 ≤ d.buffer_fill; omega)
    rw [e, hstep]
    have i1b : (ticks (display_ { d with offset := d.offset + 2, last_scroll := now })
        nows).offset = 2 * (nows.length + 1) := by
      rw [i1]; show d.offset + 2 + 2 * nows.length = 2 * (nows.length + 1); omega
    have i2b : (ticks (display_ { d with offset := d.offset + 2, last_scroll := now })
        nows).last_scroll = nows.getLastD now := i2
    have i3b : (ticks (display_ { d with offset := d.offset + 2, last_scroll := now })
        nows).scroll = true := i3.trans hs
    have i4b : (ticks (display_ { d with offset := d.offset + 2, last_scroll := now })
        nows).displays = d.displays := i4
    have i5b : (ticks (display_ { d with offset := d.offset + 2, last_scroll := now })
        nows).buffer_fill = d.buffer_fill := i5
    have i6b : (ticks (display_ { d with offset := d.offset + 2, last_scroll := now })
        nows).scroll_speed = d.scroll_speed := i6
    have i7b : (ticks (display_ { d with offset := d.offset + 2, last_scroll := now })
        nows).scroll_dwell = d.scroll_dwell := i7
    refine ⟨i1b, i2b, ?_, ?_⟩
    · intro hmid t ht
      exact loop_idle_mid _ t i3b (by rw [i1b, i4b, i5b]; exact hmid) (by rw [i2b, i6b]; exact ht)
    · intro hend t
      refine ⟨fun ht => ?_, fun ht => ?_⟩
      · exact loop_hold_end _ t i3b (by rw [i4b, i5b]; exact hfill)
          (by rw [i1b, i4b, i5b]; exact hend) (by rw [i2b, i7b]; exact ht)
      · rw [loop_wrap _ t i3b (by rw [i4b, i5b]; exact hfill)
          (by rw [i1b, i4b, i5b]; exact hend) (by rw [i2b, i7b]; exact ht)]
        exact ⟨rfl, rfl⟩
  · exact ⟨(d.buffer_fill - d.displays * 8) / 2, by omega, by omega⟩

/-- Scenario B of the specification: the offset stays 0 at 999 ms, is 2 after
the tick at 1000 ms and 24 after the tick at 3200 ms, is held at 3699 ms and
wraps to 0 at 3700 ms. -/
theorem scroll_cycle_witness :
    (scenarioB.scroll = true ∧ scenarioB.buffer_fill % 2 = 0 ∧
      scenarioB.displays * 8 < scenarioB.buffer_fill ∧ scenarioB.offset = 0) ∧
    loop scenarioB 999 = scenarioB ∧
    (ticks scenarioB [1000]).offset = 2 ∧
    (ticks scenarioB (1000 :: ticksB)).offset = 24 ∧
    (ticks scenarioB (1000 :: ticksB)).last_scroll = 3200 ∧
    loop (ticks scenarioB (1000 :: ticksB)) 3699 = ticks scenarioB (1000 :: ticksB) ∧
    (loop (ticks scenarioB (1000 :: ticksB)) 3700).offset = 0 ∧
    (loop (ticks scenarioB (1000 :: ticksB)) 3700).last_scroll = 3700 :=
  have h := scroll_cycle scenarioB rfl (by decide) (by decide) rfl
  have h1 := h.2.1 1000 [] (by decide) (by decide) (by decide)
  have h2 := h.2.1 1000 ticksB (by decide) (by decide) (by decide)
  ⟨⟨rfl, by decide, by decide, rfl⟩, h.1 999 (by decide), h1.1, h2.1, h2.2.1,
    (h2.2.2.2 (by decide) 3699).1 (by decide),
    ((h2.2.2.2 (by decide) 3700).2 (by decide)).1,
    ((h2.2.2.2 (by decide) 3700).2 (by decide)).2⟩

/-! ## Brightness -/

theorem displayWrites_eq_map (buffer : Nat → Nat) (n k offset : Nat) :
    displayWrites buffer ((List.range n).map (fun i => k + i)) offset =
      (List.range n).map (fun i =>
        (⟨k + i, 0x00, some (offset + 8 * i), readBytes buffer (offset + 8 * i) 8⟩ :
          WriteBytes)) := by
  induction n generalizing k offset with
  | zero => rfl
  | succ n ih =>
    rw [List.range_succ_eq_map, List.map_cons, List.map_map, List.map_cons, List.map_map]
    simp only [displayWrites, DISPLAY_COMMAND_SET_DDRAM_ADDR, Nat.add_zero, Nat.mul_zero]
    congr 1
    have e1 : ((fun i => k + i) ∘ Nat.succ) = (fun i => (k + 1) + i) := by
      funext i; simp only [Function.comp, Nat.succ_eq_add_one]; omega
    rw [e1, ih (k + 1) (offset + 8)]
    apply List.map_congr_left
    intro i _
    simp only [Function.comp, Nat.succ_eq_add_one]
    have e2 : offset + 8 + 8 * i = offset + 8 * (i + 1) := by omega
    have e3 : k + 1 + i = k + (i + 1) := by omega
    rw [e2, e3]

theorem displayWrites_range (buffer : Nat → Nat) (n offset : Nat) :
    displayWrites buffer (List.range n) offset =
      (List.range n).map (fun i =>
        (⟨i, 0x00, some (offset + 8 * i), readBytes buffer (offset + 8 * i) 8⟩ : WriteBytes)) := by
  have h := displayWrites_eq_map buffer n 0 offset
  simp only [Nat.zero_add, List.map_id'] at h
  exact h

theorem readBytes_length (b : Nat → Nat) (p n : Nat) : (readBytes b p n).length = n := by
  simp [readBytes]

theorem readBytes_add (b : Nat → Nat) (p m n : Nat) :
    readBytes b p (m + n) = readBytes b p m ++ readBytes b (p + m) n := by
  induction m generalizing p with
  | zero => simp [readBytes]
  | succ m ih =>
    have e : m + 1 + n = (m + n) + 1 := by omega
    rw [e, readBytes_succ, readBytes_succ, ih (p + 1), List.cons_append]
    have e2 : p + 1 + m = p + (m + 1) := by omega
    rw [e2]

theorem displayWrites_payload (buffer : Nat → Nat) (ws : List Nat) (offset : Nat) :
    ((displayWrites buffer ws offset).map WriteBytes.data).flatten =
      readBytes buffer offset (8 * ws.length) := by
  induction ws generalizing offset with
  | nil => simp [displayWrites, readBytes]
  | cons w ws ih =>
    have e : 8 * (w :: ws).length = 8 + 8 * ws.length := by
      simp only [List.length_cons]; omega
    rw [e, readBytes_add]
    simp only [displayWrites, List.map_cons, List.flatten_cons, ih]

/-- C14: for every buffer, offset and number of windows, `display_` issues
exactly one write per window, in window order, each with command `0x00` and
exactly 8 bytes, window `i` (from 0) receiving the bytes at indices
`offset + 8 * i` to `offset + 8 * i + 7`; the payloads put end to end are the
`displays * 8` bytes of the buffer from `offset`; buffer, fill and offset are
unchanged. -/
theorem display_slices (d : HT16K33AlphaDisplay) :
    (display_ d).bus =
      d.bus ++ (List.range d.displays).map (fun i =>
        (⟨i, 0x00, some (d.offset + 8 * i), readBytes d.buffer (d.offset + 8 * i) 8⟩ :
          WriteBytes)) ∧
    (∀ w ∈ displayWrites d.buffer (List.range d.displays) d.offset, w.data.length = 8) ∧
    (displayWrites d.buffer (List.range d.displays) d.offset).length = d.displays ∧
    ((displayWrites d.buffer (List.range d.displays) d.offset).map WriteBytes.data).flatten =
      readBytes d.buffer d.offset (d.displays * 8) ∧
    (display_ d).buffer = d.buffer ∧ (display_ d).buffer_fill = d.buffer_fill ∧
    (display_ d).offset = d.offset := by
  refine ⟨?_, ?_, ?_, ?_, rfl, rfl, rfl⟩
  · show d.bus ++ displayWrites d.buffer (List.range d.displays) d.offset = _
    rw [displayWrites_range]
  · intro w hw
    rw [displayWrites_range] at hw
    simp only [List.mem_map, List.mem_range] at hw
    obtain ⟨i, _, rfl⟩ := hw
    exact readBytes_length _ _ _
  · rw [displayWrites_range]; simp
  · rw [displayWrites_payload, List.length_range, Nat.mul_comm]

/-! ### Renders read inside the buffer -/

theorem busInside_append (cap : Nat) (a b : List WriteBytes) :
    busInside cap (a ++ b) ↔ busInside cap a ∧ busInside cap b := by
  simp only [busInside, List.mem_append]
  constructor
  · intro h
    exact ⟨fun w hw => h w (Or.inl hw), fun w hw => h w (Or.inr hw)⟩
  · rintro ⟨h1, h2⟩ w (hw | hw)
    · exact h1 w hw
    · exact h2 w hw

theorem busInside_displayWrites (cap : Nat) (buffer : Nat → Nat) (n offset : Nat)
    (h : offset + n * 8 ≤ cap) : busInside cap (displayWrites buffer (List.range n) offset) := by
  intro w hw
  rw [displayWrites_range] at hw
  simp only [List.mem_map, List.mem_range] at hw
  obtain ⟨i, hi, rfl⟩ := hw
  simp only [readsInside, readBytes_length, decide_eq_true_eq]
  omega

theorem storeLoop_pos_small (cap : Nat) (hcap : cap ≤ 254) (hpar : cap % 2 = 0)
    (cs : List (Nat × Nat)) (pos : Nat) (b : Nat → Nat) (hpos : pos ≤ cap)
    (heven : pos % 2 = 0) :
    (storeLoop cap cs pos b).pos ≤ cap := by
  induction cs generalizing pos b with
  | nil => exact hpos
  | cons c cs ih =>
    obtain ⟨k, f⟩ := c
    by_cases hfull : cap ≤ pos
    · rw [storeLoop_full cap _ _ _ hfull]; exact hpos
    · simp only [storeLoop, ge_iff_le, hfull, if_false]
      have e : (storeCell b pos f).2 = pos + 2 := by rw [storeCell_snd]; omega
      rw [e]
      exact ih (pos + 2) _ (by omega) (by omega)

theorem print_small (font : Nat → Nat) (d : HT16K33AlphaDisplay) (t : List Nat)
    (hcap : d.custom_buffer ≤ 254) (hpar : d.custom_buffer % 2 = 0)
    (hfill : d.buffer_fill ≤ d.custom_buffer) (heven : d.buffer_fill % 2 = 0) :
    d.buffer_fill ≤ (print font d t).buffer_fill ∧
    (print font d t).buffer_fill ≤ d.custom_buffer ∧
    (print font d t).buffer_fill % 2 = 0 := by
  have e : d.buffer_fill % 256 = d.buffer_fill := by omega
  have hp : (print font d t).buffer_fill =
      (storeLoop d.custom_buffer (cellsOf font (scrollText d t) 0) d.buffer_fill d.buffer).pos := by
    show (printRun font d t).pos = _
    rw [printRun, printLoop_eq_storeLoop, e]
  rw [hp]
  refine ⟨(storeLoop_untouched _ hcap _ _ _).1, storeLoop_pos_small _ hcap hpar _ _ _ hfill heven,
    ?_⟩
  rw [storeLoop_pos_parity]; exact heven

theorem printAll_small (font : Nat → Nat) (texts : List (List Nat)) (d : HT16K33AlphaDisplay)
    (hcap : d.custom_buffer ≤ 254) (hpar : d.custom_buffer % 2 = 0)
    (hfill : d.buffer_fill ≤ d.custom_buffer) (heven : d.buffer_fill % 2 = 0) :
    (printAll font texts d).buffer_fill ≤ d.custom_buffer ∧
    (printAll font texts d).buffer_fill % 2 = 0 ∧
    (printAll font texts d).custom_buffer = d.custom_buffer := by
  induction texts generalizing d with
  | nil => exact ⟨hfill, heven, rfl⟩
  | cons t texts ih =>
    obtain ⟨_, p2, p3⟩ := print_small font d t hcap hpar hfill heven
    exact ih (print font d t) hcap hpar p2 p3

theorem loop_custom_buffer (d : HT16K33AlphaDisplay) (now : Nat) :
    (loop d now).custom_buffer = d.custom_buffer := by
  unfold loop display_
  dsimp only
  split_ifs <;> rfl

theorem loop_offset_scroll_off (d : HT16K33AlphaDisplay) (now : Nat) (hs : d.scroll = false)
    (ho : d.offset = 0) : (loop d now).offset = 0 := by
  unfold loop display_
  simp only [toNat_max_sub]
  split_ifs <;> simp_all
  all_goals omega

theorem loop_busInside (d : HT16K33AlphaDisplay) (now : Nat)
    (hlo : d.displays * 8 ≤ d.custom_buffer) (ho : d.offset % 2 = 0)
    (hf : d.buffer_fill % 2 = 0) (hfill : d.buffer_fill ≤ d.custom_buffer)
    (hbus : busInside d.custom_buffer d.bus) :
    busInside d.custom_buffer (loop d now).bus := by
  unfold loop display_
  simp only [toNat_max_sub]
  split_ifs
  all_goals try simp only [busInside_append]
  all_goals
    first
    | exact hbus
    | refine ⟨hbus, busInside_displayWrites _ _ _ _ ?_⟩
    | refine ⟨⟨hbus, busInside_displayWrites _ _ _ _ ?_⟩, busInside_displayWrites _ _ _ _ ?_⟩
  all_goals simp_all
  all_goals omega

theorem loop_renderInv (d : HT16K33AlphaDisplay) (now : Nat) (h : RenderInv d) :
    RenderInv (loop d now) := by
  obtain ⟨h1, h2, h3, h4, h5, h6, h7, _, h9⟩ := h
  obtain ⟨f1, f2, f3, _⟩ := loop_fields d now
  obtain ⟨b1, b2⟩ := loop_offset_bound d now h4 h5
  have hb := loop_busInside d now h2 h4 h5 h6 h9
  have hc := loop_custom_buffer d now
  unfold RenderInv
  rw [f1, f2, f3, hc]
  refine ⟨h1, h2, h3, b1, h5, h6, fun hs => loop_offset_scroll_off d now hs (h7 hs), ?_, hb⟩
  omega

theorem print_renderInv (font : Nat → Nat) (d : HT16K33AlphaDisplay) (t : List Nat)
    (h : RenderInv d) : RenderInv (print font d t) := by
  obtain ⟨h1, h2, h3, h4, h5, h6, h7, h8, h9⟩ := h
  obtain ⟨p1, p2, p3⟩ := print_small font d t h3 h1 h6 h5
  refine ⟨h1, h2, h3, h4, p3, p2, h7, ?_, h9⟩
  show d.offset + d.displays * 8 ≤ max (print font d t).buffer_fill (d.displays * 8)
  omega

theorem update_fields (d : HT16K33AlphaDisplay)
    (writer : HT16K33AlphaDisplay → HT16K33AlphaDisplay) (now : Nat) (e : HT16K33AlphaDisplay)
    (he : writer { d with buffer := memset0 d.buffer d.custom_buffer, buffer_fill := 0 } = e) :
    (update d writer now).custom_buffer = e.custom_buffer ∧
    (update d writer now).displays = e.displays ∧
    (update d writer now).scroll = e.scroll ∧
    (update d writer now).buffer_fill = e.buffer_fill ∧
    (update d writer now).offset =
      (if e.scroll = true ∧ d.buffer_fill ≠ e.buffer_fill then 0 else e.offset) ∧
    (update d writer now).bus =
      e.bus ++ displayWrites e.buffer (List.range e.displays)
        (if e.scroll = true ∧ d.buffer_fill ≠ e.buffer_fill then 0 else e.offset) := by
  unfold update display_
  dsimp only
  rw [he]
  by_cases hc : e.scroll = true ∧ d.buffer_fill ≠ e.buffer_fill
  · have hb : (e.scroll && d.buffer_fill != e.buffer_fill) = true := by
      simp [hc.1, hc.2]
    rw [if_pos hb, if_pos hc]
    exact ⟨rfl, rfl, rfl, rfl, rfl, rfl⟩
  · have hb : ¬ (e.scroll && d.buffer_fill != e.buffer_fill) = true := by
      simpa using hc
    rw [if_neg hb, if_neg hc]
    exact ⟨rfl, rfl, rfl, rfl, rfl, rfl⟩

theorem update_renderInv (font : Nat → Nat) (d : HT16K33AlphaDisplay)
    (texts : List (List Nat)) (now : Nat) (h : RenderInv d) :
    RenderInv (update d (printAll font texts) now) := by
  obtain ⟨h1, h2, h3, h4, h5, h6, h7, h8, h9⟩ := h
  obtain ⟨a1, _, a3, a4, a5, _⟩ := printAll_fields font texts
    { d with buffer := memset0 d.buffer d.custom_buffer, buffer_fill := 0 }
  obtain ⟨s1, s2, s3⟩ := printAll_small font texts
    { d with buffer := memset0 d.buffer d.custom_buffer, buffer_fill := 0 } h3 h1
    (Nat.zero_le _) rfl
  obtain ⟨u1, u2, u3, u4, u5, u6⟩ := update_fields d (printAll font texts) now _ rfl
  generalize printAll font texts
    { d with buffer := memset0 d.buffer d.custom_buffer, buffer_fill := 0 } = e at *
  simp only at a1 a3 a4 a5 s1 s2 s3
  unfold RenderInv
  rw [u1, u2, u3, u4, u5, u6, s3, a4, a3, a5]
  by_cases hc : d.scroll = true ∧ d.buffer_fill ≠ e.buffer_fill
  · rw [if_pos hc, busInside_append]
    exact ⟨h1, h2, h3, rfl, s2, s1, fun _ => rfl, by omega, h9,
      busInside_displayWrites _ _ _ _ (by omega)⟩
  · rw [if_neg hc, a1, busInside_append]
    have hoff : d.offset + d.displays * 8 ≤ max e.buffer_fill (d.displays * 8) := by
      cases hs : d.scroll with
      | false => have := h7 hs; omega
      | true =>
        have : d.buffer_fill = e.buffer_fill := by
          by_contra hne
          exact hc ⟨hs, hne⟩
        rw [← this]; exact h8
    exact ⟨h1, h2, h3, h4, s2, s1, h7, hoff, h9, busInside_displayWrites _ _ _ _ (by omega)⟩

theorem performAll_renderInv (font : Nat → Nat) (calls : List Call) (d : HT16K33AlphaDisplay)
    (h : RenderInv d) : RenderInv (performAll font d calls) := by
  induction calls generalizing d with
  | nil => exact h
  | cons call calls ih =>
    apply ih (perform font d call)
    cases call with
    | update texts now => exact update_renderInv font d texts now h
    | print text => exact print_renderInv font d text h
    | loop now => exact loop_renderInv d now h

theorem printAll_custom_buffer (font : Nat → Nat) (texts : List (List Nat))
    (d : HT16K33AlphaDisplay) : (printAll font texts d).custom_buffer = d.custom_buffer := by
  induction texts generalizing d with
  | nil => rfl
  | cons t texts ih => exact ih (print font d t)

theorem performAll_config (font : Nat → Nat) (calls : List Call) (d : HT16K33AlphaDisplay) :
    (performAll font d calls).custom_buffer = d.custom_buffer ∧
    (performAll font d calls).displays = d.displays := by
  induction calls generalizing d with
  | nil => exact ⟨rfl, rfl⟩
  | cons call calls ih =>
    obtain ⟨i1, i2⟩ := ih (perform font d call)
    have : (perform font d call).custom_buffer = d.custom_buffer ∧
        (perform font d call).displays = d.displays := by
      cases call with
      | update texts now =>
        obtain ⟨u1, u2, _⟩ := update_fields d (printAll font texts) now _ rfl
        exact ⟨u1.trans (printAll_custom_buffer font texts _),
          u2.trans (printAll_fields font texts _).2.2.2.1⟩
      | print text => exact ⟨rfl, rfl⟩
      | loop now => exact ⟨loop_custom_buffer d now, (loop_fields d now).2.1⟩
    exact ⟨i1.trans this.1, i2.trans this.2⟩

/-- C17: if the capacity is even and `displays * 8 ≤ capacity ≤ 254`, then in
every state reached from an initial state (offset 0, fill 0, no write issued
outside the buffer so far) by any sequence of `update`, `print` and `loop`
calls, every `write_bytes` call of the log, so every render issued by `update`
or `loop`, has read only buffer indices below the capacity, and
`offset + displays * 8 ≤ max fill (displays * 8) ≤ capacity` holds. -/
theorem render_reads_inside (font : Nat → Nat) (d : HT16K33AlphaDisplay) (calls : List Call)
    (hpar : d.custom_buffer % 2 = 0) (hlo : d.displays * 8 ≤ d.custom_buffer)
    (hhi : d.custom_buffer ≤ 254) (ho : d.offset = 0) (hf : d.buffer_fill = 0)
    (hbus : busInside d.custom_buffer d.bus) :
    busInside d.custom_buffer (performAll font d calls).bus ∧
    (performAll font d calls).offset + d.displays * 8 ≤
      max (performAll font d calls).buffer_fill (d.displays * 8) ∧
    max (performAll font d calls).buffer_fill (d.displays * 8) ≤ d.custom_buffer := by
  have h0 : RenderInv d :=
    ⟨hpar, hlo, hhi, by rw [ho], by rw [hf], by rw [hf]; exact Nat.zero_le _, fun _ => ho,
      by rw [ho, hf]; omega, hbus⟩
  obtain ⟨_, _, _, _, _, k6, _, k8, k9⟩ := performAll_renderInv font calls d h0
  obtain ⟨c1, c2⟩ := performAll_config font calls d
  rw [c1] at k6 k9
  rw [c2] at k8
  exact ⟨k9, k8, by omega⟩

/-- The renders of a scrolling session on two windows with a 64-byte buffer:
a text of 20 cells, two ticks, a shorter text, one more tick. -/
theorem render_reads_inside_witness :
    ((initial 2 64 true 1000 500 200).custom_buffer % 2 = 0 ∧
      (initial 2 64 true 1000 500 200).displays * 8 ≤
        (initial 2 64 true 1000 500 200).custom_buffer ∧
      (initial 2 64 true 1000 500 200).custom_buffer ≤ 254) ∧
    busInside 64 (performAll (fun c => c) (initial 2 64 true 1000 500 200)
      [Call.update [List.replicate 20 65] 0, Call.loop 1000, Call.loop 1200,
        Call.update [[65]] 1300, Call.loop 1400]).bus :=
  ⟨⟨by decide, by decide, by decide⟩,
    (render_reads_inside (fun c => c) (initial 2 64 true 1000 500 200)
      [Call.update [List.replicate 20 65] 0, Call.loop 1000, Call.loop 1200,
        Call.update [[65]] 1300, Call.loop 1400]
      (by decide) (by decide) (by decide) rfl rfl (fun w hw => absurd hw (List.not_mem_nil w))).1⟩

/-! ## Continuous scrolling -/

theorem scrollText_on (d : HT16K33AlphaDisplay) (t : List Nat) (hc : d.c_scroll = true)
    (hN : d.c_scroll_display_length < ((cstr t).filter (fun c => c != 46)).length) :
    scrollText d t =
      (cstr t ++ ([32] ++ d.c_scroll_spacer ++ [32])) ++
        (cstr t ++ ([32] ++ d.c_scroll_spacer ++ [32])).take d.c_scroll_display_length := by
  unfold scrollText
  simp [hc, hN]

theorem scrollText_unchanged (d : HT16K33AlphaDisplay) (t : List Nat)
    (h : d.c_scroll = false ∨
      ((cstr t).filter (fun c => c != 46)).length ≤ d.c_scroll_display_length) :
    scrollText d t = t := by
  unfold scrollText
  rcases h with h | h
  · simp [h]
  · have : ¬ d.c_scroll_display_length < ((cstr t).filter (fun c => c != 46)).length := by omega
    simp [this]

/-- C11: with continuous scroll enabled, threshold `N` and spacer `s`, for
every text whose length without its `.` characters exceeds `N` the loop of
`print` runs over `original + " " + s + " " + rewritten[0:N]`; with the spacer
`***` this is `original + " *** " + rewritten[0:N]`; for every other text, and
whenever continuous scroll is disabled, it runs over the text unchanged. The
original is the C string at `str`. -/
theorem continuous_scroll_rewrite (font : Nat → Nat) (d : HT16K33AlphaDisplay) (t : List Nat) :
    (d.c_scroll = true →
      d.c_scroll_display_length < ((cstr t).filter (fun c => c != 46)).length →
      scrollText d t = rewrittenSpec d.c_scroll_spacer d.c_scroll_display_length (cstr t) ∧
      printRun font d t =
        printLoop d.custom_buffer font
          (rewrittenSpec d.c_scroll_spacer d.c_scroll_display_length (cstr t)) 0
          (d.buffer_fill % 256) d.buffer) ∧
    (d.c_scroll = false ∨
        ((cstr t).filter (fun c => c != 46)).length ≤ d.c_scroll_display_length →
      scrollText d t = t ∧
      printRun font d t = printLoop d.custom_buffer font t 0 (d.buffer_fill % 256) d.buffer) ∧
    rewrittenSpec [42, 42, 42] d.c_scroll_display_length (cstr t) =
      cstr t ++ [32, 42, 42, 42, 32] ++
        (cstr t ++ [32, 42, 42, 42, 32]).take d.c_scroll_display_length := by
  refine ⟨fun hc hN => ?_, fun h => ?_, ?_⟩
  · have e : scrollText d t =
        rewrittenSpec d.c_scroll_spacer d.c_scroll_display_length (cstr t) := by
      rw [scrollText_on d t hc hN]
      simp [rewrittenSpec]
    exact ⟨e, by rw [printRun, e]⟩
  · have e := scrollText_unchanged d t h
    exact ⟨e, by rw [printRun, e]⟩
  · simp [rewrittenSpec]

/-- Scenario E of the specification: threshold 4, spacer `***`, the text
`ABCDEF` is rewritten to `ABCDEF *** ABCD`; the text `A.B.C.D`, four
characters without its dots, is left as it is. -/
theorem continuous_scroll_rewrite_witness :
    scrollText { initial 2 64 true 1000 500 200 with
        c_scroll := true, c_scroll_spacer := [42, 42, 42], c_scroll_display_length := 4 }
        [65, 66, 67, 68, 69, 70] =
      [65, 66, 67, 68, 69, 70, 32, 42, 42, 42, 32, 65, 66, 67, 68] ∧
    scrollText { initial 2 64 true 1000 500 200 with
        c_scroll := true, c_scroll_spacer := [42, 42, 42], c_scroll_display_length := 4 }
        [65, 46, 66, 46, 67, 46, 68] = [65, 46, 66, 46, 67, 46, 68] :=
  ⟨((continuous_scroll_rewrite (fun c => c) { initial 2 64 true 1000 500 200 with
        c_scroll := true, c_scroll_spacer := [42, 42, 42], c_scroll_display_length := 4 }
        [65, 66, 67, 68, 69, 70]).1 rfl (by decide)).1,
    ((continuous_scroll_rewrite (fun c => c) { initial 2 64 true 1000 500 200 with
        c_scroll := true, c_scroll_spacer := [42, 42, 42], c_scroll_display_length := 4 }
        [65, 46, 66, 46, 67, 46, 68]).2.1 (Or.inr (by decide))).1⟩

/-- C16: whenever `print` applies the continuous-scroll rewrite, the threshold
`N` is below the length of the original text, so the range
`[begin, begin + N)` of the string with the spacer appended lies inside that
string, and the appended head is exactly the first `N` characters of the
original text. -/
theorem continuous_scroll_slice_in_bounds (d : HT16K33AlphaDisplay) (t : List Nat)
    (hc : d.c_scroll = true)
    (hN : d.c_scroll_display_length < ((cstr t).filter (fun c => c != 46)).length) :
    ((cstr t).filter (fun c => c != 46)).length ≤ (cstr t).length ∧
    d.c_scroll_display_length < (cstr t).length ∧
    d.c_scroll_display_length ≤ (cstr t ++ ([32] ++ d.c_scroll_spacer ++ [32])).length ∧
    (cstr t ++ ([32] ++ d.c_scroll_spacer ++ [32])).take d.c_scroll_display_length =
      (cstr t).take d.c_scroll_display_length ∧
    ((cstr t).take d.c_scroll_display_length).length = d.c_scroll_display_length ∧
    scrollText d t =
      cstr t ++ ([32] ++ d.c_scroll_spacer ++ [32]) ++
        (cstr t).take d.c_scroll_display_length := by
  have h1 : ((cstr t).filter (fun c => c != 46)).length ≤ (cstr t).length :=
    List.length_filter_le _ _
  have h2 : d.c_scroll_display_length < (cstr t).length := by omega
  have h3 : (cstr t ++ ([32] ++ d.c_scroll_spacer ++ [32])).take d.c_scroll_display_length =
      (cstr t).take d.c_scroll_display_length :=
    List.take_append_of_le_length (by omega)
  refine ⟨h1, h2, ?_, h3, ?_, ?_⟩
  · rw [List.length_append]; omega
  · rw [List.length_take]; omega
  · rw [scrollText_on d t hc hN, h3]

/-- The slice of scenario E: threshold 4 on `A.BCDE` with spacer `***`. -/
theorem continuous_scroll_slice_in_bounds_witness :
    (4 < (([65, 46, 66, 67, 68, 69] : List Nat).filter (fun c => c != 46)).length) ∧
    scrollText { initial 2 64 true 1000 500 200 with
        c_scroll := true, c_scroll_spacer := [42, 42, 42], c_scroll_display_length := 4 }
        [65, 46, 66, 67, 68, 69] =
      [65, 46, 66, 67, 68, 69, 32, 42, 42, 42, 32, 65, 46, 66, 67] :=
  ⟨by decide,
    (continuous_scroll_slice_in_bounds { initial 2 64 true 1000 500 200 with
        c_scroll := true, c_scroll_spacer := [42, 42, 42], c_scroll_display_length := 4 }
        [65, 46, 66, 67, 68, 69] rfl (by decide)).2.2.2.2.2⟩

/-! ## The write cursor -/

theorem storeLoop_pos_lt (cap : Nat) (cs : List (Nat × Nat)) (pos : Nat) (b : Nat → Nat)
    (hpos : pos < 256) : (storeLoop cap cs pos b).pos < 256 := by
  induction cs generalizing pos b with
  | nil => exact hpos
  | cons c cs ih =>
    obtain ⟨k, f⟩ := c
    by_cases hfull : cap ≤ pos
    · rw [storeLoop_full cap _ _ _ hfull]; exact hpos
    · simp only [storeLoop, ge_iff_le, hfull, if_false]
      exact ih _ _ (by rw [storeCell_snd]; omega)

theorem storeLoop_congr_snd (cap : Nat) (cs cs2 : List (Nat × Nat))
    (h : cs.map Prod.snd = cs2.map Prod.snd) (pos : Nat) (b : Nat → Nat) :
    (storeLoop cap cs pos b).buffer = (storeLoop cap cs2 pos b).buffer ∧
    (storeLoop cap cs pos b).pos = (storeLoop cap cs2 pos b).pos := by
  induction cs generalizing cs2 pos b with
  | nil =>
    cases cs2 with
    | nil => exact ⟨rfl, rfl⟩
    | cons c2 cs2 => simp at h
  | cons c cs ih =>
    cases cs2 with
    | nil => simp at h
    | cons c2 cs2 =>
      obtain ⟨k, f⟩ := c
      obtain ⟨k2, f2⟩ := c2
      simp only [List.map_cons, List.cons.injEq] at h
      obtain ⟨hf, ht⟩ := h
      subst hf
      by_cases hfull : cap ≤ pos
      · rw [storeLoop_full cap _ _ _ hfull, storeLoop_full cap _ _ _ hfull]
        exact ⟨rfl, rfl⟩
      · simp only [storeLoop, ge_iff_le, hfull, if_false]
        exact ih cs2 ht _ _

theorem cellsOf_snd_shift (font : Nat → Nat) (s : List Nat) (i j : Nat) :
    (cellsOf font s i).map Prod.snd = (cellsOf font s j).map Prod.snd := by
  induction s, i using cellsOf.induct font generalizing j with
  | case1 i => simp [cellsOf]
  | case2 str i => unfold cellsOf; simp
  | case3 c i h0 => simp [cellsOf, h0]
  | case4 c i h0 str2 ih =>
    simp only [cellsOf, h0, if_false, if_true, List.map_cons]
    rw [ih (j + 2)]
  | case5 c i h0 c2 str2 h46 ih =>
    simp only [cellsOf, h0, h46, if_false, List.map_cons]
    rw [ih (j + 1)]

/-- C18: with continuous scroll disabled, for every state and all texts `a`
(without zero bytes) and `b` such that `b` does not begin with `.`,
`print a` followed by `print b` leaves the same buffer and the same fill as
a single `print (a ++ b)` from the same state, whether or not the buffer
fills up part-way; this holds in particular for an even fill at most an even
capacity at most 254. -/
theorem print_appends (font : Nat → Nat) (d : HT16K33AlphaDisplay) (a b : List Nat)
    (hc : d.c_scroll = false) (hz : ∀ c ∈ a, c ≠ 0) (hb : b.head? ≠ some 46) :
    (print font (print font d a) b).buffer = (print font d (a ++ b)).buffer ∧
    (print font (print font d a) b).buffer_fill = (print font d (a ++ b)).buffer_fill := by
  have hlt := storeLoop_pos_lt d.custom_buffer (cellsOf font a 0) (d.buffer_fill % 256) d.buffer
    (Nat.mod_lt _ (by decide))
  have e1 : printRun font d a =
      storeLoop d.custom_buffer (cellsOf font a 0) (d.buffer_fill % 256) d.buffer :=
    printRun_eq_storeLoop font d a hc
  have e2 : printRun font (print font d a) b =
      storeLoop d.custom_buffer (cellsOf font b 0)
        ((printRun font d a).pos % 256) (printRun font d a).buffer :=
    printRun_eq_storeLoop font (print font d a) b hc
  have e3 : printRun font d (a ++ b) =
      storeLoop d.custom_buffer (cellsOf font (a ++ b) 0) (d.buffer_fill % 256) d.buffer :=
    printRun_eq_storeLoop font d (a ++ b) hc
  rw [cellsOf_append font a b 0 hz hb, storeLoop_append] at e3
  have hmod : (printRun font d a).pos % 256 = (printRun font d a).pos := by
    rw [e1]; exact Nat.mod_eq_of_lt hlt
  rw [hmod, e1] at e2
  obtain ⟨c1, c2⟩ := storeLoop_congr_snd d.custom_buffer (cellsOf font b 0)
    (cellsOf font b (0 + a.length)) (cellsOf_snd_shift font b 0 (0 + a.length))
    (storeLoop d.custom_buffer (cellsOf font a 0) (d.buffer_fill % 256) d.buffer).pos
    (storeLoop d.custom_buffer (cellsOf font a 0) (d.buffer_fill % 256) d.buffer).buffer
  show (printRun font (print font d a) b).buffer = (printRun font d (a ++ b)).buffer ∧
    (printRun font (print font d a) b).pos = (printRun font d (a ++ b)).pos
  rw [e2, e3]
  exact ⟨c1, c2⟩

/-- Printing `1` and then `2.3` from the empty buffer leaves fill 6 and the
buffer of a single print of `12.3`. -/
theorem print_appends_witness :
    ((initial 2 64 false 0 0 0).c_scroll = false ∧ (∀ c ∈ [49], c ≠ 0) ∧
      ([50, 46, 51] : List Nat).head? ≠ some 46) ∧
    (print (fun c => c) (print (fun c => c) (initial 2 64 false 0 0 0) [49])
      [50, 46, 51]).buffer_fill = 6 ∧
    (print (fun c => c) (print (fun c => c) (initial 2 64 false 0 0 0) [49]) [50, 46, 51]).buffer =
      (print (fun c => c) (initial 2 64 false 0 0 0) ([49] ++ [50, 46, 51])).buffer :=
  ⟨⟨rfl, by decide, by decide⟩, by decide,
    (print_appends (fun c => c) (initial 2 64 false 0 0 0) [49] [50, 46, 51] rfl (by decide)
      (by decide)).1⟩

theorem storeLoop_cells_pos_wrap (cap : Nat) (hcap : 256 ≤ cap) (cs : List (Nat × Nat))
    (pos : Nat) (b : Nat → Nat) (hpos : pos < 256) :
    (storeLoop cap cs pos b).cells.map Cell.pos =
      (List.range cs.length).map (fun k => (pos + 2 * k) % 256) := by
  induction cs generalizing pos b with
  | nil => rfl
  | cons c cs ih =>
    obtain ⟨i, f⟩ := c
    have hfull : ¬ cap ≤ pos := by omega
    simp only [storeLoop, ge_iff_le, hfull, if_false, List.length_cons, List.map_cons]
    rw [ih _ _ (by rw [storeCell_snd]; omega), storeCell_snd, List.range_succ_eq_map,
      List.map_cons, List.map_map]
    have e0 : (pos + 2 * 0) % 256 = pos := by omega
    rw [e0]
    congr 1
    apply List.map_congr_left
    intro k _
    simp only [Function.comp, Nat.succ_eq_add_one]
    omega

theorem storeLoop_cells_pos_small (cap : Nat) (hcap : cap ≤ 254) (hpar : cap % 2 = 0)
    (cs : List (Nat × Nat)) (pos : Nat) (b : Nat → Nat) (heven : pos % 2 = 0) :
    (storeLoop cap cs pos b).cells.map Cell.pos =
      (List.range (storeLoop cap cs pos b).cells.length).map (fun k => pos + 2 * k) ∧
    ∀ cell ∈ (storeLoop cap cs pos b).cells, cell.pos + 1 < cap := by
  induction cs generalizing pos b with
  | nil => simp [storeLoop]
  | cons c cs ih =>
    obtain ⟨i, f⟩ := c
    by_cases hfull : cap ≤ pos
    · rw [storeLoop_full cap _ _ _ hfull]; simp
    · have e : (storeCell b pos f).2 = pos + 2 := by rw [storeCell_snd]; omega
      simp only [storeLoop, ge_iff_le, hfull, if_false, List.length_cons, List.map_cons, e]
      obtain ⟨i1, i2⟩ := ih (pos + 2) (storeCell b pos f).1 (by omega)
      constructor
      · rw [i1, List.range_succ_eq_map, List.map_cons, List.map_map]
        congr 1
        apply List.map_congr_left
        intro k _
        simp only [Function.comp, Nat.succ_eq_add_one]
        omega
      · intro cell hcell
        rcases List.mem_cons.mp hcell with h | h
        · subst h; simp only; omega
        · exact i2 cell h

theorem storeCell_fst (buffer : Nat → Nat) (pos fontc i : Nat) :
    (storeCell buffer pos fontc).1 i =
      if i = (pos + 1) % 256 then fontc / 256 % 256
      else if i = pos then fontc % 256 else buffer i := by
  simp only [storeCell, Function.update_apply]

/-- C19: with continuous scroll disabled and a text without zero bytes: for
every capacity of 256 or more and every start fill `f < 256` the loop of
`print` stores every cell of the text, the `k`-th of them (from 0) at the
cursor `(f + 2 * k) % 256`, and the final fill is
`(f + 2 * validCharCount t) % 256`; for every even capacity of 254 or less
and every even start fill `f` at most the capacity, the `k`-th stored cell is
at the cursor `f + 2 * k`, both of its bytes below the capacity, and the
final fill is `min capacity (f + 2 * validCharCount t)`. A cell stored at the
cursor `pos` occupies the byte indices `pos` and `(pos + 1) % 256`. -/
theorem print_cursor_is_8_bit (font : Nat → Nat) (d : HT16K33AlphaDisplay) (t : List Nat)
    (hc : d.c_scroll = false) (hz : ∀ c ∈ t, c ≠ 0) :
    (256 ≤ d.custom_buffer → d.buffer_fill < 256 →
      (printRun font d t).cells.length = validCharCount t ∧
      (printRun font d t).cells.map Cell.pos =
        (List.range (validCharCount t)).map (fun k => (d.buffer_fill + 2 * k) % 256) ∧
      (print font d t).buffer_fill = (d.buffer_fill + 2 * validCharCount t) % 256) ∧
    (d.custom_buffer ≤ 254 → d.custom_buffer % 2 = 0 → d.buffer_fill % 2 = 0 →
      d.buffer_fill ≤ d.custom_buffer →
      (printRun font d t).cells.map Cell.pos =
        (List.range (printRun font d t).cells.length).map (fun k => d.buffer_fill + 2 * k) ∧
      (∀ cell ∈ (printRun font d t).cells, cell.pos + 1 < d.custom_buffer) ∧
      (print font d t).buffer_fill =
        min d.custom_buffer (d.buffer_fill + 2 * validCharCount t)) ∧
    (∀ (buffer : Nat → Nat) (pos fontc i : Nat),
      (storeCell buffer pos fontc).1 i =
        if i = (pos + 1) % 256 then fontc / 256 % 256
        else if i = pos then fontc % 256 else buffer i) := by
  have hr := printRun_eq_storeLoop font d t hc
  have hl := cellsOf_length font t 0 hz
  have hp : (print font d t).buffer_fill = (printRun font d t).pos := rfl
  refine ⟨fun hcap hf => ?_, fun hcap hpar heven hle => ?_, storeCell_fst⟩
  · have e : d.buffer_fill % 256 = d.buffer_fill := Nat.mod_eq_of_lt hf
    rw [hp, hr, e]
    refine ⟨?_, ?_, ?_⟩
    · rw [storeLoop_cells_length_wrap _ hcap _ _ _ hf, hl]
    · rw [storeLoop_cells_pos_wrap _ hcap _ _ _ hf, hl]
    · rw [storeLoop_pos_wrap _ hcap _ _ _ hf, hl]
  · have e : d.buffer_fill % 256 = d.buffer_fill := by omega
    rw [hp, hr, e]
    obtain ⟨s1, s2⟩ := storeLoop_cells_pos_small d.custom_buffer hcap hpar (cellsOf font t 0)
      d.buffer_fill d.buffer heven
    refine ⟨s1, s2, ?_⟩
    by_cases hfit : d.buffer_fill + 2 * validCharCount t ≤ d.custom_buffer
    · rw [(storeLoop_fits _ _ _ _ (by rw [hl]; exact hfit) (by rw [hl]; omega)).1, hl]
      omega
    · rw [(storeLoop_truncates _ _ _ _ hle (by omega) (by omega) (by rw [hl]; omega)).1]
      omega

/-- The cursor on `12.3`: three cells at the cursors 0, 2 and 4 and fill 6
with a capacity of 64; the same text from fill 252 with a capacity of 256
wraps to the cursors 252, 254 and 0 and ends with fill 2. -/
theorem print_cursor_is_8_bit_witness :
    ((initial 2 64 false 0 0 0).c_scroll = false ∧ ∀ c ∈ [49, 50, 46, 51], c ≠ 0) ∧
    (print (fun c => c) (initial 2 64 false 0 0 0) [49, 50, 46, 51]).buffer_fill =
      min 64 (0 + 2 * validCharCount [49, 50, 46, 51]) ∧
    (printRun (fun c => c) { initial 32 256 false 0 0 0 with buffer_fill := 252 }
      [49, 50, 46, 51]).cells.map Cell.pos = [252, 254, 0] ∧
    (print (fun c => c) { initial 32 256 false 0 0 0 with buffer_fill := 252 }
      [49, 50, 46, 51]).buffer_fill = 2 :=
  ⟨⟨rfl, by decide⟩,
    ((print_cursor_is_8_bit (fun c => c) (initial 2 64 false 0 0 0) [49, 50, 46, 51] rfl
      (by decide)).2.1 (by decide) (by decide) (by decide) (by decide)).2.2,
    ((print_cursor_is_8_bit (fun c => c) { initial 32 256 false 0 0 0 with buffer_fill := 252 }
      [49, 50, 46, 51] rfl (by decide)).1 (by decide) (by decide)).2.1,
    ((print_cursor_is_8_bit (fun c => c) { initial 32 256 false 0 0 0 with buffer_fill := 252 }
      [49, 50, 46, 51] rfl (by decide)).1 (by decide) (by decide)).2.2⟩

/-! ## The first scroll step -/

/-- C15: for every state with scrolling enabled, fill above `displays * 8` and
offset 0, a tick at which less than `scroll_delay` has elapsed since the last
transition returns the state as it was: offset, `last_scroll`, buffer and
fill are unchanged and nothing is written to the bus. -/
theorem start_dwell_holds (d : HT16K33AlphaDisplay) (now : Nat) (hs : d.scroll = true)
    (hfill : d.displays * 8 < d.buffer_fill) (ho : d.offset = 0)
    (ht : elapsed now d.last_scroll < d.scroll_delay) :
    loop d now = d ∧
    (loop d now).offset = d.offset ∧ (loop d now).last_scroll = d.last_scroll ∧
    (loop d now).buffer = d.buffer ∧ (loop d now).buffer_fill = d.buffer_fill ∧
    (loop d now).bus = d.bus := by
  have h := loop_hold_start d now hs hfill ho ht
  rw [h]
  exact ⟨rfl, rfl, rfl, rfl, rfl, rfl⟩

/-- Scenario B at 999 ms: the tick changes nothing, no render is issued. -/
theorem start_dwell_holds_witness :
    (scenarioB.scroll = true ∧ scenarioB.displays * 8 < scenarioB.buffer_fill ∧
      scenarioB.offset = 0 ∧ elapsed 999 scenarioB.last_scroll < scenarioB.scroll_delay) ∧
    (loop scenarioB 999).offset = 0 ∧ (loop scenarioB 999).bus = [] :=
  have h := start_dwell_holds scenarioB 999 rfl (by decide) rfl (by decide)
  ⟨⟨rfl, by decide, rfl, by decide⟩, h.2.1, h.2.2.2.2.2⟩

/-- C20: for every state with scrolling enabled, offset 0 and fill above
`displays * 8`, a tick moves the offset to 2 if and only if the time elapsed
since the last transition is at least `max scroll_delay scroll_speed`; it then
stamps `last_scroll = now` and renders at offset 2; otherwise the state,
offset and `last_scroll` included, is unchanged. -/
theorem first_step_waits_for_both (d : HT16K33AlphaDisplay) (now : Nat) (hs : d.scroll = true)
    (hfill : d.displays * 8 < d.buffer_fill) (ho : d.offset = 0) :
    ((loop d now).offset = 2 ↔
      max d.scroll_delay d.scroll_speed ≤ elapsed now d.last_scroll) ∧
    (max d.scroll_delay d.scroll_speed ≤ elapsed now d.last_scroll →
      (loop d now).offset = 2 ∧ (loop d now).last_scroll = now ∧
      (loop d now).bus = d.bus ++ displayWrites d.buffer (List.range d.displays) 2) ∧
    (elapsed now d.last_scroll < max d.scroll_delay d.scroll_speed →
      loop d now = d ∧ (loop d now).offset = d.offset ∧
      (loop d now).last_scroll = d.last_scroll) := by
  have hmove : max d.scroll_delay d.scroll_speed ≤ elapsed now d.last_scroll →
      (loop d now).offset = 2 ∧ (loop d now).last_scroll = now ∧
      (loop d now).bus = d.bus ++ displayWrites d.buffer (List.range d.displays) 2 := by
    intro h
    rw [loop_advance d now hs (by omega) (fun _ => by omega) (by omega)]
    refine ⟨?_, rfl, ?_⟩
    · show d.offset + 2 = 2
      omega
    · show d.bus ++ displayWrites d.buffer (List.range d.displays) (d.offset + 2) = _
      rw [ho]
  have hstay : elapsed now d.last_scroll < max d.scroll_delay d.scroll_speed →
      loop d now = d := by
    intro h
    by_cases hd : elapsed now d.last_scroll < d.scroll_delay
    · exact loop_hold_start d now hs hfill ho hd
    · exact loop_idle_mid d now hs (by omega) (by omega)
  refine ⟨⟨fun h2 => ?_, fun h => (hmove h).1⟩, hmove, fun h => ?_⟩
  · by_contra hlt
    have hsame := hstay (by omega)
    rw [hsame, ho] at h2
    exact absurd h2 (by decide)
  · have hsame := hstay h
    rw [hsame]
    exact ⟨rfl, rfl, rfl⟩

/-- Scenario B with the timers swapped (delay 200, speed 1000): at 999 ms the
delay has long passed but the speed has not, and the offset stays 0; at
1000 ms it moves to 2. -/
theorem first_step_waits_for_both_witness :
    (loop { initial 2 64 true 200 500 1000 with buffer_fill := 40 } 999).offset = 0 ∧
    (loop { initial 2 64 true 200 500 1000 with buffer_fill := 40 } 1000).offset = 2 ∧
    (loop { initial 2 64 true 200 500 1000 with buffer_fill := 40 } 1000).last_scroll = 1000 :=
  have h999 := first_step_waits_for_both
    { initial 2 64 true 200 500 1000 with buffer_fill := 40 } 999 rfl (by decide) rfl
  have h1000 := first_step_waits_for_both
    { initial 2 64 true 200 500 1000 with buffer_fill := 40 } 1000 rfl (by decide) rfl
  ⟨(h999.2.2 (by decide)).2.1, (h1000.2.1 (by decide)).1, (h1000.2.1 (by decide)).2.1⟩
end HT16K33
